import Mathlib

/-!
Shallow embedding of the cache engine in `src/memcached.rs`
(`rust_memcached`).

Modelling choices:
- `Instant` is `Nat` (the monotonic clock only ever compares instants
  and adds durations); `Duration` is also `Nat`.
- Value bytes are `List Nat`.
- `HashMap<String, Item>` becomes an association list with unique keys;
  the map is never iterated by the source, so ordering is irrelevant.
- `BTreeMap<Instant, Vec<&str>>` becomes an association list sorted by
  strictly increasing instant; `btreeGet` / `btreeRemove` / `btreeInsert`
  model `get` / `remove` / `insert`, and list order models the ascending
  iteration order of the B-tree.
- Operations that sample `Instant::now()` take the sampled instant as an
  explicit argument (`set` takes two: the instant `collect_garbage` would
  sample and the `touch` instant sampled afterwards).
- `usize` arithmetic on `current_size` is `Nat` arithmetic; the source's
  `-=` would panic (debug) on underflow, which the invariants below rule
  out, so truncated subtraction agrees with it on all reachable states.
- The source panics (`unwrap` / `expect`) on states that violate its own
  invariants; those branches are modelled as no-ops and are proved
  unreachable from any reachable state (see `Inv` and `C1`).
-/

namespace RustMemcached

abbrev Key := String
abbrev Instant := Nat
abbrev Bytes := List Nat
abbrev Idx := List (Instant × List Key)

/-- Model of `struct Item { touch, ttl, data }`: the stored entry. In the
source `ttl` is the absolute expiry instant (despite the name). -/
structure Item where
  touch : Instant
  ttl : Option Instant
  data : Bytes
deriving DecidableEq

/-- Lookup in the association-list model of `HashMap<String, Item>`. -/
def mapGet (key : Key) : List (Key × Item) → Option Item
  | [] => none
  | p :: rest => if p.1 = key then some p.2 else mapGet key rest

/-- Removal in the association-list model of `HashMap::remove`. -/
def mapRemove (key : Key) (m : List (Key × Item)) : List (Key × Item) :=
  m.filter (fun p => decide (p.1 ≠ key))

/-- Insertion in the association-list model of `HashMap::insert`
(replaces any existing binding, as the hash map does). -/
def mapInsert (key : Key) (it : Item) (m : List (Key × Item)) : List (Key × Item) :=
  (key, it) :: mapRemove key m

/-- `BTreeMap::get` on the sorted-association-list model. -/
def btreeGet (t : Instant) : Idx → Option (List Key)
  | [] => none
  | p :: rest => if p.1 = t then some p.2 else btreeGet t rest

/-- `BTreeMap::remove` on the sorted-association-list model. -/
def btreeRemove (t : Instant) (m : Idx) : Idx :=
  m.filter (fun p => decide (p.1 ≠ t))

/-- `BTreeMap::insert` on the sorted-association-list model: places the
binding at its position in ascending instant order. -/
def btreeInsert (t : Instant) (v : List Key) : Idx → Idx
  | [] => [(t, v)]
  | p :: rest =>
    if t < p.1 then (t, v) :: p :: rest
    else if t = p.1 then (t, v) :: rest
    else p :: btreeInsert t v rest

/-- Model of `pub struct Memcached`. -/
structure Memcached where
  limit : Nat
  current_size : Nat
  cache : List (Key × Item)
  keys_by_ttl : Idx
  keys_by_touch : Idx
deriving DecidableEq

/-- `Memcached::new(limit)`: everything else is `Default` (empty / zero). -/
def Memcached.new (limit : Nat) : Memcached :=
  { limit := limit, current_size := 0, cache := [], keys_by_ttl := [], keys_by_touch := [] }

/-- `Memcached::remove_from_ttl`. The source's `remove(&ttl).unwrap()`
panics when the bucket is absent; the `getD []` default is the modelled
stand-in for that unreachable branch. -/
def Memcached.remove_from_ttl (mc : Memcached) (key : Key) (ttl : Option Instant) : Memcached :=
  match ttl with
  | none => mc
  | some t =>
    let keys := (btreeGet t mc.keys_by_ttl).getD []
    let keys := keys.filter (fun k => decide (k ≠ key))
    let m := btreeRemove t mc.keys_by_ttl
    if keys.isEmpty then { mc with keys_by_ttl := m }
    else { mc with keys_by_ttl := btreeInsert t keys m }

/-- `Memcached::remove_from_touch`; same remark on `unwrap` as for
`remove_from_ttl`. -/
def Memcached.remove_from_touch (mc : Memcached) (key : Key) (touch : Instant) : Memcached :=
  let keys := (btreeGet touch mc.keys_by_touch).getD []
  let keys := keys.filter (fun k => decide (k ≠ key))
  let m := btreeRemove touch mc.keys_by_touch
  if keys.isEmpty then { mc with keys_by_touch := m }
  else { mc with keys_by_touch := btreeInsert touch keys m }

/-- `Memcached::delete`: returns the removed value (if any) together with
the successor state (`&mut self` made explicit). -/
def Memcached.delete (mc : Memcached) (key : Key) : Option Bytes × Memcached :=
  match mapGet key mc.cache with
  | none => (none, mc)
  | some item =>
    let mc1 : Memcached := { mc with cache := mapRemove key mc.cache }
    let mc2 := mc1.remove_from_touch key item.touch
    let mc3 := mc2.remove_from_ttl key item.ttl
    (some item.data, { mc3 with current_size := mc3.current_size - item.data.length })

/-- `Memcached::get`: takes `&self`, so it returns no successor state —
it cannot mutate the engine. `now` is the sampled `Instant::now()`. -/
def Memcached.get (mc : Memcached) (key : Key) (now : Instant) : Option Bytes :=
  match mapGet key mc.cache with
  | none => none
  | some item =>
    match item.ttl with
    | some t => if t < now then none else some item.data
    | none => some item.data

/-- The closure `not_enough_space` inside `Memcached::set`. -/
def not_enough_space (mc : Memcached) (value_len : Nat) : Bool :=
  decide (mc.current_size + value_len > mc.limit)

/-- `Memcached::remove_oldest`. The source `expect`s a non-empty first
bucket (it panics otherwise); that unreachable branch is modelled as
returning `false` without change. -/
def Memcached.remove_oldest (mc : Memcached) : Bool × Memcached :=
  match mc.keys_by_touch.head? with
  | none => (false, mc)
  | some (_, keys) =>
    match keys.head? with
    | none => (false, mc)
    | some key =>
      let r := mc.delete key
      (r.1.isSome, r.2)

/-- The `while not_enough_space(self) && self.remove_oldest()` loop of
`Memcached::set`, with explicit fuel so that the definition is
structural. `set` passes fuel `cache.length + 1`, which is proved
sufficient (`evictLoop_fuel_irrel`): every `true` step of `remove_oldest`
strictly shrinks the cache, so the loop exits before the fuel does. -/
def evictLoop (value_len : Nat) : Nat → Memcached → Memcached
  | 0, mc => mc
  | fuel + 1, mc =>
    if not_enough_space mc value_len then
      match mc.remove_oldest with
      | (true, mc') => evictLoop value_len fuel mc'
      | (false, mc') => mc'
    else mc

/-- The `keys_sets` collection step of `collect_garbage`: `iter_mut` +
`take_while(ttl < now)` + `mem::take(v)` blanks each expired bucket in
place while collecting its contents. -/
def blankExpired (now : Instant) : Idx → Idx
  | [] => []
  | p :: rest =>
    if p.1 < now then (p.1, ([] : List Key)) :: blankExpired now rest
    else p :: rest

/-- The body of the removal loop in `collect_garbage`, for one `key` of
the expired bucket at instant `bucket_ttl`: `cache.remove_entry(key)
.unwrap()`, `remove_from_touch`, `keys_by_ttl.remove(ttl)`, size
decrement. The `unwrap` panic branch is modelled as a no-op. -/
def gcRemoveKey (bucket_ttl : Instant) (mc : Memcached) (key : Key) : Memcached :=
  match mapGet key mc.cache with
  | none => mc
  | some item =>
    let mc1 : Memcached := { mc with cache := mapRemove key mc.cache }
    let mc2 := mc1.remove_from_touch key item.touch
    let mc3 : Memcached := { mc2 with keys_by_ttl := btreeRemove bucket_ttl mc2.keys_by_ttl }
    { mc3 with current_size := mc3.current_size - item.data.length }

/-- `Memcached::collect_garbage`; `now` is the instant sampled at its
start. The expired prefix of `keys_by_ttl` is materialised (and blanked
in place) first, then every collected key is removed. -/
def Memcached.collect_garbage (mc : Memcached) (now : Instant) : Memcached :=
  let keys_sets := mc.keys_by_ttl.takeWhile (fun p => decide (p.1 < now))
  let mc1 : Memcached := { mc with keys_by_ttl := blankExpired now mc.keys_by_ttl }
  keys_sets.foldl (fun acc p => p.2.foldl (fun a k => gcRemoveKey p.1 a k) acc) mc1

/-- `Memcached::set`. `gc_now` is the instant `collect_garbage` samples
if it runs; `touch` is the instant sampled after admission. Returns the
`bool` result with the successor state. -/
def Memcached.set (mc : Memcached) (key : Key) (value : Bytes) (ttl : Option Nat)
    (gc_now touch : Instant) : Bool × Memcached :=
  let mcg := if not_enough_space mc value.length then mc.collect_garbage gc_now else mc
  let mce := evictLoop value.length (mcg.cache.length + 1) mcg
  if not_enough_space mce value.length then (false, mce)
  else
    let mcd := (mce.delete key).2
    let ttlI := ttl.map (fun d => touch + d)
    let item : Item := { touch := touch, ttl := ttlI, data := value }
    let mc1 : Memcached := { mcd with cache := mapInsert key item mcd.cache }
    let newTouchKeys := ((btreeGet touch mc1.keys_by_touch).getD []) ++ [key]
    let mc2 : Memcached :=
      { mc1 with keys_by_touch := btreeInsert touch newTouchKeys (btreeRemove touch mc1.keys_by_touch) }
    let mc3 : Memcached :=
      match ttlI with
      | some t =>
        let newTtlKeys := ((btreeGet t mc2.keys_by_ttl).getD []) ++ [key]
        { mc2 with keys_by_ttl := btreeInsert t newTtlKeys (btreeRemove t mc2.keys_by_ttl) }
      | none => mc2
    (true, { mc3 with current_size := mc3.current_size + value.length })

/-- A public mutating operation of the engine (`get` is read-only). -/
inductive Op where
  | setOp (key : Key) (value : Bytes) (ttl : Option Nat) (gc_now touch : Instant)
  | delOp (key : Key)
  | gcOp (now : Instant)

/-- Application of one public mutating operation. -/
def applyOp (mc : Memcached) : Op → Memcached
  | .setOp k v t g tc => (mc.set k v t g tc).2
  | .delOp k => (mc.delete k).2
  | .gcOp n => mc.collect_garbage n

/-- The engine state after a sequence of public operations starting from
a fresh `Memcached::new(limit)`. -/
def run (limit : Nat) (ops : List Op) : Memcached :=
  ops.foldl applyOp (Memcached.new limit)

/-! ### Specification-side definitions (worded from `spec.md`) -/

/-- Key uniqueness in the Store (keys of a `HashMap` are unique). -/
def cacheNodup (m : List (Key × Item)) : Prop :=
  m.Pairwise (fun a b => a.1 ≠ b.1)

/-- The representation invariant of the B-tree model: strictly ascending
instants (which also makes bucket instants unique). -/
def sortedIdx (m : Idx) : Prop := m.Pairwise (fun a b => a.1 < b.1)

/-- Remove the keys of `rm` from every bucket of an index and drop the
buckets that become empty (spec section 3: empty buckets are removed). -/
def purgeIdx (rm : List Key) : Idx → Idx
  | [] => []
  | p :: rest =>
    let ks := p.2.filter (fun k => decide (k ∉ rm))
    if ks.isEmpty then purgeIdx rm rest
    else (p.1, ks) :: purgeIdx rm rest

/-- Invariants over the Store, the Recency Index and `current_size`
(everything of `Inv` that does not mention the Expiry Index; the
intermediate states of `collect_garbage` satisfy exactly this part).
`tCache` strengthens spec invariant 3 with the touch instant recorded in
the entry, `cTouch` is spec invariant 1, `tNE` spec invariant 4, and
`sizeEq` spec invariant 5. -/
structure InvT (mc : Memcached) : Prop where
  nodup : cacheNodup mc.cache
  tSorted : sortedIdx mc.keys_by_touch
  tNE : ∀ p ∈ mc.keys_by_touch, p.2 ≠ []
  tCache : ∀ p ∈ mc.keys_by_touch, ∀ k ∈ p.2,
    ∃ it, mapGet k mc.cache = some it ∧ it.touch = p.1
  cTouch : ∀ p ∈ mc.cache,
    ∃ ks, btreeGet p.2.touch mc.keys_by_touch = some ks ∧ ks.count p.1 = 1
  sizeEq : mc.current_size = (mc.cache.map (fun p => p.2.data.length)).sum

/-- The full cross-structure invariant of spec section 3 (fields 1-5),
together with the representation invariants of the containers. -/
structure Inv (mc : Memcached) extends InvT mc : Prop where
  eSorted : sortedIdx mc.keys_by_ttl
  eNE : ∀ p ∈ mc.keys_by_ttl, p.2 ≠ []
  eCache : ∀ p ∈ mc.keys_by_ttl, ∀ k ∈ p.2,
    ∃ it, mapGet k mc.cache = some it ∧ it.ttl = some p.1
  cTtl : ∀ p ∈ mc.cache, ∀ t, p.2.ttl = some t →
    ∃ ks, btreeGet t mc.keys_by_ttl = some ks ∧ ks.count p.1 = 1

/-- Spec section 3, cross-structure invariants 1-5, stated as written:
1. every stored key appears exactly once in the Recency bucket at its
touch instant; 2. every stored key with an expiry appears exactly once in
the Expiry bucket at that expiry; 3. every key in either secondary index
is in the Store; 4. no bucket of either index is empty; 5. `current_size`
is the sum of the stored value lengths. -/
def SpecInvariants (mc : Memcached) : Prop :=
  (∀ p ∈ mc.cache,
    ∃ ks, btreeGet p.2.touch mc.keys_by_touch = some ks ∧ ks.count p.1 = 1) ∧
  (∀ p ∈ mc.cache, ∀ t, p.2.ttl = some t →
    ∃ ks, btreeGet t mc.keys_by_ttl = some ks ∧ ks.count p.1 = 1) ∧
  (∀ p ∈ mc.keys_by_touch, ∀ k ∈ p.2, ∃ it, mapGet k mc.cache = some it) ∧
  (∀ p ∈ mc.keys_by_ttl, ∀ k ∈ p.2, ∃ it, mapGet k mc.cache = some it) ∧
  (∀ p ∈ mc.keys_by_touch, p.2 ≠ []) ∧
  (∀ p ∈ mc.keys_by_ttl, p.2 ≠ []) ∧
  mc.current_size = (mc.cache.map (fun p => p.2.data.length)).sum

/-- Spec 4.1 `collect_garbage`: the keys of the prefix of Expiry-Index
buckets whose instant is strictly before `now`. -/
def expiredKeys (now : Instant) (mc : Memcached) : List Key :=
  ((mc.keys_by_ttl.takeWhile (fun p => decide (p.1 < now))).map Prod.snd).flatten

/-- Total value length of the entries of `m` whose key lies in `rm`. -/
def keysSize (rm : List Key) (m : List (Key × Item)) : Nat :=
  ((m.filter (fun p => decide (p.1 ∈ rm))).map (fun p => p.2.data.length)).sum

/-- Spec 4.1 `collect_garbage`, stated as the spec words it: remove every
key of every expired bucket (instant strictly below `now`) from the Store
and from its Recency bucket, subtract the removed value lengths from
`current_size`, remove the expired Expiry buckets, and leave the buckets
at or after `now` untouched. -/
def gcSpec (now : Instant) (mc : Memcached) : Memcached :=
  let rm := expiredKeys now mc
  { limit := mc.limit
    current_size := mc.current_size - keysSize rm mc.cache
    cache := mc.cache.filter (fun p => decide (p.1 ∉ rm))
    keys_by_ttl := mc.keys_by_ttl.filter (fun p => decide (¬ p.1 < now))
    keys_by_touch := purgeIdx rm mc.keys_by_touch }

/-- Spec 4.1 step 3: while the entry does not fit and the Recency Index
is non-empty, evict the single oldest key — the first key of the first
bucket — through the full delete path, and re-test. Fuel only bounds the
iteration count so the definition is structural; `setSpec` passes enough
of it. -/
def evictLoopSpec (value_len : Nat) : Nat → Memcached → Memcached
  | 0, mc => mc
  | fuel + 1, mc =>
    if decide (mc.current_size + value_len ≤ mc.limit) then mc
    else
      match mc.keys_by_touch with
      | [] => mc
      | (_, ks) :: _ => evictLoopSpec value_len fuel (mc.delete (ks.headD "")).2

/-- Spec 4.1 `set`, written from the eight numbered steps of the
admission policy: 1. test `fits` with any pre-existing entry for `key`
still counted; 2. if it does not fit, `collect_garbage` once; 3. evict
oldest while it does not fit and the Recency Index is non-empty;
4. otherwise Rejected; 5. remove the pre-existing entry (full delete
semantics); 6. `expiry = ttl.map (touch + .)`; 7. insert the entry,
append `key` to the Recency bucket at `touch` and, if `expiry` is set, to
the Expiry bucket at `expiry`; 8. add the value length to
`current_size`. -/
def setSpec (mc : Memcached) (key : Key) (value : Bytes) (ttl : Option Nat)
    (gc_now touch : Instant) : Bool × Memcached :=
  let mcg := if decide (mc.current_size + value.length ≤ mc.limit) then mc
             else mc.collect_garbage gc_now
  let mce := evictLoopSpec value.length (mcg.cache.length + 1) mcg
  if decide (¬ mce.current_size + value.length ≤ mce.limit) then (false, mce)
  else
    let mcd := (mce.delete key).2
    let expiry := ttl.map (fun d => touch + d)
    let mc1 : Memcached := { mcd with cache := mapInsert key ⟨touch, expiry, value⟩ mcd.cache }
    let touchBucket := ((btreeGet touch mc1.keys_by_touch).getD []) ++ [key]
    let mc2 : Memcached :=
      { mc1 with keys_by_touch := btreeInsert touch touchBucket (btreeRemove touch mc1.keys_by_touch) }
    let mc3 : Memcached :=
      match expiry with
      | some e =>
        let ttlBucket := ((btreeGet e mc2.keys_by_ttl).getD []) ++ [key]
        { mc2 with keys_by_ttl := btreeInsert e ttlBucket (btreeRemove e mc2.keys_by_ttl) }
      | none => mc2
    (true, { mc3 with current_size := mc3.current_size + value.length })

/-- The commit phase of `Memcached::set` (everything after the admission
test passes), factored out verbatim so the proofs can name the resulting
state: `set_eq` shows `set` literally computes it. -/
def commitState (mcd : Memcached) (key : Key) (value : Bytes) (ttlI : Option Instant)
    (touch : Instant) : Memcached :=
  let item : Item := { touch := touch, ttl := ttlI, data := value }
  let mc1 : Memcached := { mcd with cache := mapInsert key item mcd.cache }
  let newTouchKeys := ((btreeGet touch mc1.keys_by_touch).getD []) ++ [key]
  let mc2 : Memcached :=
    { mc1 with keys_by_touch := btreeInsert touch newTouchKeys (btreeRemove touch mc1.keys_by_touch) }
  let mc3 : Memcached :=
    match ttlI with
    | some t =>
      let newTtlKeys := ((btreeGet t mc2.keys_by_ttl).getD []) ++ [key]
      { mc2 with keys_by_ttl := btreeInsert t newTtlKeys (btreeRemove t mc2.keys_by_ttl) }
    | none => mc2
  { mc3 with current_size := mc3.current_size + value.length }

/-- Concrete state for counterexamples: one entry `"a"` of length 1,
touched at instant 0, expiring at instant 5, in a cache of limit 10. -/
def mcExp : Memcached :=
  { limit := 10, current_size := 1,
    cache := [("a", ⟨0, some 5, [7]⟩)],
    keys_by_ttl := [(5, ["a"])],
    keys_by_touch := [(0, ["a"])] }

/-- Concrete state for counterexamples: one entry `"a"` of length 1 and
no expiry, in a cache of limit 10 (plenty of room). -/
def mcA : Memcached :=
  { limit := 10, current_size := 1,
    cache := [("a", ⟨0, none, [7]⟩)],
    keys_by_ttl := [],
    keys_by_touch := [(0, ["a"])] }

/-- Concrete state for counterexamples: one entry `"a"` of length 1 and
no expiry, in a cache of limit 1 (full). -/
def mcFull : Memcached :=
  { limit := 1, current_size := 1,
    cache := [("a", ⟨0, none, [7]⟩)],
    keys_by_ttl := [],
    keys_by_touch := [(0, ["a"])] }

end RustMemcached

namespace RustMemcached

/-! ### Toolkit: the association-list model of `HashMap` -/

theorem mapGet_mem {k : Key} {m : List (Key × Item)} {it : Item}
    (h : mapGet k m = some it) : (k, it) ∈ m := by
  induction m with
  | nil => simp [mapGet] at h
  | cons p rest ih =>
    by_cases hp : p.1 = k
    · simp [mapGet, hp] at h
      subst h hp
      exact List.mem_cons_self _ _
    · simp [mapGet, hp] at h
      exact List.mem_cons_of_mem _ (ih h)

theorem mapGet_eq_some_of_mem {k : Key} {m : List (Key × Item)} {it : Item}
    (hnd : cacheNodup m) (hmem : (k, it) ∈ m) : mapGet k m = some it := by
  induction m with
  | nil => simp at hmem
  | cons p rest ih =>
    rcases List.mem_cons.mp hmem with h | h
    · subst h; simp [mapGet]
    · have hne : p.1 ≠ k := by
        have := (List.pairwise_cons.mp hnd).1 _ h
        simpa using this
      simp [mapGet, hne]
      exact ih (List.pairwise_cons.mp hnd).2 h

theorem mapGet_none_of_not_mem {k : Key} {m : List (Key × Item)}
    (h : ∀ it, (k, it) ∉ m) : mapGet k m = none := by
  induction m with
  | nil => rfl
  | cons p rest ih =>
    have hp : p.1 ≠ k := by
      intro he
      exact h p.2 (by rw [← he]; exact List.mem_cons_self _ _)
    simp [mapGet, hp]
    exact ih fun it hmem => h it (List.mem_cons_of_mem _ hmem)

theorem mem_mapRemove {p : Key × Item} {k : Key} {m : List (Key × Item)} :
    p ∈ mapRemove k m ↔ p ∈ m ∧ p.1 ≠ k := by
  simp [mapRemove, List.mem_filter]

theorem mapGet_mapRemove_self (k : Key) (m : List (Key × Item)) :
    mapGet k (mapRemove k m) = none := by
  refine mapGet_none_of_not_mem fun it hmem => ?_
  exact (mem_mapRemove.mp hmem).2 rfl

theorem mapRemove_cons (k : Key) (p : Key × Item) (rest : List (Key × Item)) :
    mapRemove k (p :: rest) =
      if p.1 = k then mapRemove k rest else p :: mapRemove k rest := by
  simp only [mapRemove, List.filter_cons]
  by_cases hp : p.1 = k <;> simp [hp]

theorem mapGet_mapRemove_ne {k' k : Key} (m : List (Key × Item)) (h : k' ≠ k) :
    mapGet k' (mapRemove k m) = mapGet k' m := by
  induction m with
  | nil => rfl
  | cons p rest ih =>
    rw [mapRemove_cons]
    by_cases hp : p.1 = k
    · have hp' : ¬ p.1 = k' := fun he => h (he.symm.trans hp)
      have hkk : ¬ k = k' := fun he => h he.symm
      simp [hp, mapGet, hp', hkk, ih]
    · by_cases hk' : p.1 = k'
      · simp [hp, mapGet, hk', h]
      · simp [hp, mapGet, hk', ih]

theorem mapRemove_nodup {k : Key} {m : List (Key × Item)} (h : cacheNodup m) :
    cacheNodup (mapRemove k m) :=
  List.Pairwise.sublist (List.filter_sublist m) h

theorem mapRemove_eq_self {k : Key} {m : List (Key × Item)}
    (h : mapGet k m = none) : mapRemove k m = m := by
  induction m with
  | nil => rfl
  | cons p rest ih =>
    by_cases hp : p.1 = k
    · simp [mapGet, hp] at h
    · simp [mapGet, hp] at h
      rw [mapRemove_cons, if_neg hp, ih h]

theorem mapRemove_length_lt {k : Key} {m : List (Key × Item)} {it : Item}
    (h : mapGet k m = some it) : (mapRemove k m).length < m.length := by
  rw [mapRemove, List.length_filter_lt_length_iff_exists]
  exact ⟨(k, it), mapGet_mem h, by simp⟩

theorem sum_split_mapRemove {k : Key} {m : List (Key × Item)} {it : Item}
    (f : Key × Item → Nat) (hnd : cacheNodup m) (h : mapGet k m = some it) :
    (m.map f).sum = f (k, it) + ((mapRemove k m).map f).sum := by
  induction m with
  | nil => simp [mapGet] at h
  | cons p rest ih =>
    by_cases hp : p.1 = k
    · simp [mapGet, hp] at h
      have hrest : mapRemove k rest = rest := by
        refine mapRemove_eq_self (mapGet_none_of_not_mem fun it' hmem => ?_)
        have := (List.pairwise_cons.mp hnd).1 _ hmem
        simp [hp] at this
      have hpk : p = (k, it) := by
        rcases p with ⟨p1, p2⟩
        simp only at hp h
        simp [hp, h]
      subst hpk
      rw [mapRemove_cons, if_pos rfl, hrest]
      simp
    · simp [mapGet, hp] at h
      have hih := ih (List.pairwise_cons.mp hnd).2 h
      rw [mapRemove_cons, if_neg hp]
      simp only [List.map_cons, List.sum_cons, hih]
      omega

/-! ### Toolkit: the sorted-association-list model of `BTreeMap` -/

theorem btreeGet_mem {t : Instant} {m : Idx} {ks : List Key}
    (h : btreeGet t m = some ks) : (t, ks) ∈ m := by
  induction m with
  | nil => simp [btreeGet] at h
  | cons p rest ih =>
    by_cases hp : p.1 = t
    · simp [btreeGet, hp] at h
      subst h hp
      exact List.mem_cons_self _ _
    · simp [btreeGet, hp] at h
      exact List.mem_cons_of_mem _ (ih h)

theorem btreeGet_eq_some_of_mem {t : Instant} {m : Idx} {ks : List Key}
    (hs : sortedIdx m) (hmem : (t, ks) ∈ m) : btreeGet t m = some ks := by
  induction m with
  | nil => simp at hmem
  | cons p rest ih =>
    rcases List.mem_cons.mp hmem with h | h
    · subst h; simp [btreeGet]
    · have hlt : p.1 < t := (List.pairwise_cons.mp hs).1 _ h
      have hne : p.1 ≠ t := Nat.ne_of_lt hlt
      simp [btreeGet, hne]
      exact ih (List.pairwise_cons.mp hs).2 h

theorem btreeGet_none_of_not_mem {t : Instant} {m : Idx}
    (h : ∀ ks, (t, ks) ∉ m) : btreeGet t m = none := by
  induction m with
  | nil => rfl
  | cons p rest ih =>
    have hp : p.1 ≠ t := by
      intro he
      exact h p.2 (by rw [← he]; exact List.mem_cons_self _ _)
    simp [btreeGet, hp]
    exact ih fun ks hmem => h ks (List.mem_cons_of_mem _ hmem)

theorem mem_btreeRemove {p : Instant × List Key} {t : Instant} {m : Idx} :
    p ∈ btreeRemove t m ↔ p ∈ m ∧ p.1 ≠ t := by
  simp [btreeRemove, List.mem_filter]

theorem btreeGet_btreeRemove_self (t : Instant) (m : Idx) :
    btreeGet t (btreeRemove t m) = none := by
  refine btreeGet_none_of_not_mem fun ks hmem => ?_
  exact (mem_btreeRemove.mp hmem).2 rfl

theorem btreeRemove_cons (t : Instant) (p : Instant × List Key) (rest : Idx) :
    btreeRemove t (p :: rest) =
      if p.1 = t then btreeRemove t rest else p :: btreeRemove t rest := by
  simp only [btreeRemove, List.filter_cons]
  by_cases hp : p.1 = t <;> simp [hp]

theorem btreeGet_btreeRemove_ne {t' t : Instant} (m : Idx) (h : t' ≠ t) :
    btreeGet t' (btreeRemove t m) = btreeGet t' m := by
  induction m with
  | nil => rfl
  | cons p rest ih =>
    rw [btreeRemove_cons]
    by_cases hp : p.1 = t
    · have hp' : ¬ p.1 = t' := fun he => h (he.symm.trans hp)
      have htt : ¬ t = t' := fun he => h he.symm
      simp [hp, hp', htt, btreeGet, ih]
    · by_cases ht' : p.1 = t'
      · simp [hp, btreeGet, ht', h]
      · simp [hp, btreeGet, ht', ih]

theorem btreeRemove_eq_self {t : Instant} {m : Idx}
    (h : btreeGet t m = none) : btreeRemove t m = m := by
  induction m with
  | nil => rfl
  | cons p rest ih =>
    by_cases hp : p.1 = t
    · simp [btreeGet, hp] at h
    · simp [btreeGet, hp] at h
      rw [btreeRemove_cons, if_neg hp, ih h]

theorem btreeGet_btreeInsert_self (t : Instant) (v : List Key) (m : Idx) :
    btreeGet t (btreeInsert t v m) = some v := by
  induction m with
  | nil => simp [btreeInsert, btreeGet]
  | cons p rest ih =>
    by_cases h1 : t < p.1
    · simp [btreeInsert, h1, btreeGet]
    · by_cases h2 : t = p.1
      · simp [btreeInsert, h1, h2, btreeGet]
      · have hp : p.1 ≠ t := fun he => h2 he.symm
        simp [btreeInsert, h1, h2, btreeGet, hp, ih]

theorem btreeGet_btreeInsert_ne {t' t : Instant} (v : List Key) (m : Idx) (h : t' ≠ t) :
    btreeGet t' (btreeInsert t v m) = btreeGet t' m := by
  have hne : ¬ t = t' := fun he => h he.symm
  induction m with
  | nil => simp [btreeInsert, btreeGet, hne]
  | cons p rest ih =>
    by_cases h1 : t < p.1
    · simp [btreeInsert, h1, btreeGet, hne]
    · by_cases h2 : t = p.1
      · have hp : ¬ p.1 = t' := fun he => hne (h2.trans he)
        simp [btreeInsert, h1, h2, btreeGet, hne, hp]
      · simp only [btreeInsert, if_neg h1, if_neg h2]
        by_cases hpt' : p.1 = t'
        · simp [btreeGet, hpt']
        · simp [btreeGet, hpt', ih]

theorem mem_btreeInsert_elim {p : Instant × List Key} {t : Instant} {v : List Key} {m : Idx}
    (h : p ∈ btreeInsert t v m) : p = (t, v) ∨ p ∈ m := by
  induction m with
  | nil =>
    simp only [btreeInsert, List.mem_singleton] at h
    exact Or.inl h
  | cons q rest ih =>
    by_cases h1 : t < q.1
    · simp only [btreeInsert, if_pos h1] at h
      rcases List.mem_cons.mp h with h | h
      · exact Or.inl h
      · exact Or.inr h
    · by_cases h2 : t = q.1
      · simp only [btreeInsert, if_neg h1, if_pos h2] at h
        rcases List.mem_cons.mp h with h | h
        · exact Or.inl h
        · exact Or.inr (List.mem_cons_of_mem _ h)
      · simp only [btreeInsert, if_neg h1, if_neg h2] at h
        rcases List.mem_cons.mp h with h | h
        · exact Or.inr (by rw [h]; exact List.mem_cons_self _ _)
        · rcases ih h with h' | h'
          · exact Or.inl h'
          · exact Or.inr (List.mem_cons_of_mem _ h')

theorem mem_btreeInsert_of_mem {p : Instant × List Key} {t : Instant} {v : List Key} {m : Idx}
    (hmem : p ∈ m) (hne : p.1 ≠ t) : p ∈ btreeInsert t v m := by
  induction m with
  | nil => simp at hmem
  | cons q rest ih =>
    by_cases h1 : t < q.1
    · simp only [btreeInsert, if_pos h1]
      exact List.mem_cons_of_mem _ hmem
    · by_cases h2 : t = q.1
      · simp only [btreeInsert, if_neg h1, if_pos h2]
        rcases List.mem_cons.mp hmem with h | h
        · exfalso; exact hne (by rw [h, h2])
        · exact List.mem_cons_of_mem _ h
      · simp only [btreeInsert, if_neg h1, if_neg h2]
        rcases List.mem_cons.mp hmem with h | h
        · rw [h]; exact List.mem_cons_self _ _
        · exact List.mem_cons_of_mem _ (ih h)

theorem self_mem_btreeInsert (t : Instant) (v : List Key) (m : Idx) :
    (t, v) ∈ btreeInsert t v m :=
  btreeGet_mem (btreeGet_btreeInsert_self t v m)

theorem keys_btreeInsert_sub {t' t : Instant} {v : List Key} {m : Idx}
    (h : ∃ ks, (t', ks) ∈ btreeInsert t v m) : t' = t ∨ ∃ ks, (t', ks) ∈ m := by
  rcases h with ⟨ks, hks⟩
  rcases mem_btreeInsert_elim hks with h' | h'
  · left; exact congrArg Prod.fst h'
  · right; exact ⟨ks, h'⟩

theorem sortedIdx_btreeInsert {t : Instant} {v : List Key} {m : Idx}
    (hs : sortedIdx m) : sortedIdx (btreeInsert t v m) := by
  induction m with
  | nil => simp [btreeInsert, sortedIdx]
  | cons q rest ih =>
    rcases List.pairwise_cons.mp hs with ⟨hq, hrest⟩
    by_cases h1 : t < q.1
    · simp only [btreeInsert, if_pos h1, sortedIdx]
      refine List.pairwise_cons.mpr ⟨?_, hs⟩
      intro p hp
      show t < p.1
      rcases List.mem_cons.mp hp with h | h
      · rw [h]; exact h1
      · exact lt_trans h1 (hq _ h)
    · by_cases h2 : t = q.1
      · simp only [btreeInsert, if_neg h1, if_pos h2, sortedIdx]
        refine List.pairwise_cons.mpr ⟨?_, hrest⟩
        intro p hp
        show t < p.1
        exact lt_of_eq_of_lt h2 (hq _ hp)
      · simp only [btreeInsert, if_neg h1, if_neg h2, sortedIdx]
        refine List.pairwise_cons.mpr ⟨?_, ih hrest⟩
        intro p hp
        show q.1 < p.1
        rcases mem_btreeInsert_elim hp with h | h
        · rw [h]
          show q.1 < t
          exact Nat.lt_of_le_of_ne (Nat.le_of_not_lt h1) fun he => h2 he.symm
        · exact hq _ h

theorem sortedIdx_btreeRemove {t : Instant} {m : Idx} (hs : sortedIdx m) :
    sortedIdx (btreeRemove t m) :=
  List.Pairwise.sublist (List.filter_sublist m) hs

end RustMemcached

namespace RustMemcached

/-! ### Toolkit: `purgeIdx` -/

theorem btreeInsert_front {t : Instant} {v : List Key} {m : Idx}
    (h : ∀ q ∈ m, t < q.1) : btreeInsert t v m = (t, v) :: m := by
  cases m with
  | nil => rfl
  | cons q rest =>
    have := h q (List.mem_cons_self _ _)
    simp only [btreeInsert, if_pos this]

theorem mem_purgeIdx_elim {q : Instant × List Key} {rm : List Key} {m : Idx}
    (h : q ∈ purgeIdx rm m) :
    ∃ p, p ∈ m ∧ q.1 = p.1 ∧ q.2 = p.2.filter (fun k => decide (k ∉ rm)) ∧ q.2 ≠ [] := by
  induction m with
  | nil => simp [purgeIdx] at h
  | cons p rest ih =>
    simp only [purgeIdx] at h
    by_cases he : (p.2.filter (fun k => decide (k ∉ rm))).isEmpty
    · rw [if_pos he] at h
      rcases ih h with ⟨p', hp', h1, h2, h3⟩
      exact ⟨p', List.mem_cons_of_mem _ hp', h1, h2, h3⟩
    · rw [if_neg he] at h
      rcases List.mem_cons.mp h with h' | h'
      · refine ⟨p, List.mem_cons_self _ _, by rw [h'], by rw [h'], ?_⟩
        rw [h']
        simpa [List.isEmpty_iff] using he
      · rcases ih h' with ⟨p', hp', h1, h2, h3⟩
        exact ⟨p', List.mem_cons_of_mem _ hp', h1, h2, h3⟩

theorem purgeIdx_NE {rm : List Key} {m : Idx} :
    ∀ q ∈ purgeIdx rm m, q.2 ≠ [] := by
  intro q hq
  exact (mem_purgeIdx_elim hq).choose_spec.2.2.2

theorem sortedIdx_purgeIdx {rm : List Key} {m : Idx} (hs : sortedIdx m) :
    sortedIdx (purgeIdx rm m) := by
  induction m with
  | nil => simp [purgeIdx, sortedIdx]
  | cons p rest ih =>
    rcases List.pairwise_cons.mp hs with ⟨hp, hrest⟩
    simp only [purgeIdx]
    by_cases he : (p.2.filter (fun k => decide (k ∉ rm))).isEmpty
    · rw [if_pos he]; exact ih hrest
    · rw [if_neg he]
      refine List.pairwise_cons.mpr ⟨?_, ih hrest⟩
      intro q hq
      show p.1 < q.1
      rcases mem_purgeIdx_elim hq with ⟨p', hp', h1, _, _⟩
      rw [h1]
      exact hp _ hp'

theorem purgeIdx_eq_self {rm : List Key} {m : Idx}
    (hne : ∀ p ∈ m, p.2 ≠ []) (hnk : ∀ p ∈ m, ∀ x ∈ p.2, x ∉ rm) :
    purgeIdx rm m = m := by
  induction m with
  | nil => rfl
  | cons p rest ih =>
    have hfil : p.2.filter (fun k => decide (k ∉ rm)) = p.2 :=
      List.filter_eq_self.mpr fun a ha => by
        simpa using hnk p (List.mem_cons_self _ _) a ha
    have hemp : ¬ (p.2.filter (fun k => decide (k ∉ rm))).isEmpty := by
      rw [hfil, List.isEmpty_iff]
      exact hne p (List.mem_cons_self _ _)
    simp only [purgeIdx, if_neg hemp]
    rw [hfil, ih (fun q hq => hne q (List.mem_cons_of_mem _ hq))
        (fun q hq => hnk q (List.mem_cons_of_mem _ hq))]

theorem btreeGet_purgeIdx_none {t : Instant} {rm : List Key} {m : Idx}
    (h : btreeGet t m = none) : btreeGet t (purgeIdx rm m) = none := by
  induction m with
  | nil => rfl
  | cons p rest ih =>
    by_cases hp : p.1 = t
    · simp [btreeGet, hp] at h
    · simp only [btreeGet, if_neg hp] at h
      simp only [purgeIdx]
      by_cases he : (p.2.filter (fun k => decide (k ∉ rm))).isEmpty
      · rw [if_pos he]; exact ih h
      · rw [if_neg he]
        simp only [btreeGet, if_neg hp]
        exact ih h

theorem btreeGet_purgeIdx_some {t : Instant} {rm : List Key} {m : Idx} {ks : List Key}
    (hs : sortedIdx m) (hget : btreeGet t m = some ks) :
    btreeGet t (purgeIdx rm m) =
      if (ks.filter (fun k => decide (k ∉ rm))).isEmpty then none
      else some (ks.filter (fun k => decide (k ∉ rm))) := by
  induction m with
  | nil => simp [btreeGet] at hget
  | cons p rest ih =>
    rcases List.pairwise_cons.mp hs with ⟨hp, hrest⟩
    by_cases hpt : p.1 = t
    · have hks : p.2 = ks := by simpa [btreeGet, hpt] using hget
      have hrestnone : btreeGet t rest = none := by
        refine btreeGet_none_of_not_mem fun ks' hmem => ?_
        have hlt : p.1 < t := hp _ hmem
        exact absurd hpt (Nat.ne_of_lt hlt)
      subst hks
      simp only [purgeIdx]
      by_cases he : (p.2.filter (fun k => decide (k ∉ rm))).isEmpty
      · rw [if_pos he, if_pos he]
        exact btreeGet_purgeIdx_none hrestnone
      · rw [if_neg he, if_neg he]
        simp [btreeGet, hpt]
    · simp only [btreeGet, if_neg hpt] at hget
      simp only [purgeIdx]
      by_cases he : (p.2.filter (fun k => decide (k ∉ rm))).isEmpty
      · rw [if_pos he]; exact ih hrest hget
      · rw [if_neg he]
        simp only [btreeGet, if_neg hpt]
        exact ih hrest hget

theorem purgeIdx_purgeIdx (rm rm' : List Key) (m : Idx) :
    purgeIdx rm' (purgeIdx rm m) = purgeIdx (rm ++ rm') m := by
  induction m with
  | nil => rfl
  | cons p rest ih =>
    have hfil : p.2.filter (fun k => decide (k ∉ rm ++ rm')) =
        (p.2.filter (fun k => decide (k ∉ rm))).filter (fun k => decide (k ∉ rm')) := by
      rw [List.filter_filter]
      refine List.filter_congr fun a _ => ?_
      simp [List.mem_append, not_or, Bool.and_comm]
    simp only [purgeIdx]
    by_cases he : (p.2.filter (fun k => decide (k ∉ rm))).isEmpty
    · have he2 : (p.2.filter (fun k => decide (k ∉ rm ++ rm'))).isEmpty := by
        rw [hfil]
        rw [List.isEmpty_iff] at he ⊢
        rw [he]
        rfl
      rw [if_pos he, if_pos he2, ih]
    · rw [if_neg he]
      simp only [purgeIdx]
      by_cases he' : ((p.2.filter (fun k => decide (k ∉ rm))).filter
          (fun k => decide (k ∉ rm'))).isEmpty
      · have he2 : (p.2.filter (fun k => decide (k ∉ rm ++ rm'))).isEmpty := by
          rw [hfil]; exact he'
        rw [if_pos he', if_pos he2, ih]
      · have he2 : ¬ (p.2.filter (fun k => decide (k ∉ rm ++ rm'))).isEmpty := by
          rw [hfil]; exact he'
        rw [if_neg he', if_neg he2, ih, hfil]

theorem purge_single_bucket {m : Idx} {t : Instant} {ks : List Key} {k : Key}
    (hs : sortedIdx m) (hne : ∀ p ∈ m, p.2 ≠ [])
    (hget : btreeGet t m = some ks)
    (hconf : ∀ p ∈ m, k ∈ p.2 → p.1 = t) :
    purgeIdx [k] m =
      if (ks.filter (fun x => decide (x ∉ ([k] : List Key)))).isEmpty
      then btreeRemove t m
      else btreeInsert t (ks.filter (fun x => decide (x ∉ ([k] : List Key)))) (btreeRemove t m) := by
  induction m with
  | nil => simp [btreeGet] at hget
  | cons p rest ih =>
    rcases List.pairwise_cons.mp hs with ⟨hp, hrest⟩
    by_cases hpt : p.1 = t
    · have hks : p.2 = ks := by simpa [btreeGet, hpt] using hget
      subst hks
      have hnotin : ∀ q ∈ rest, ∀ x ∈ q.2, x ∉ ([k] : List Key) := by
        intro q hq x hx hxk
        rw [List.mem_singleton] at hxk
        subst hxk
        have h1 : q.1 = t := hconf q (List.mem_cons_of_mem _ hq) hx
        have h2 : p.1 < q.1 := hp _ hq
        exact absurd (hpt.trans h1.symm) (Nat.ne_of_lt h2)
      have hpurge : purgeIdx [k] rest = rest :=
        purgeIdx_eq_self (fun q hq => hne q (List.mem_cons_of_mem _ hq)) hnotin
      have hremrest : btreeRemove t rest = rest := by
        refine btreeRemove_eq_self (btreeGet_none_of_not_mem fun ks' hmem => ?_)
        have h2 : p.1 < t := hp _ hmem
        exact absurd hpt (Nat.ne_of_lt h2)
      have hfront : ∀ q ∈ rest, t < q.1 := fun q hq => by
        have h2 : p.1 < q.1 := hp _ hq
        exact hpt ▸ h2
      simp only [purgeIdx]
      by_cases he : (p.2.filter (fun x => decide (x ∉ ([k] : List Key)))).isEmpty
      · rw [if_pos he, if_pos he, hpurge, btreeRemove_cons, if_pos hpt, hremrest]
      · rw [if_neg he, if_neg he, hpurge, btreeRemove_cons, if_pos hpt, hremrest,
          btreeInsert_front hfront, hpt]
    · have hget' : btreeGet t rest = some ks := by simpa [btreeGet, hpt] using hget
      have hknotp : ∀ x ∈ p.2, x ∉ ([k] : List Key) := by
        intro x hx hxk
        rw [List.mem_singleton] at hxk
        subst hxk
        exact hpt (hconf p (List.mem_cons_self _ _) hx)
      have hfil : p.2.filter (fun x => decide (x ∉ ([k] : List Key))) = p.2 :=
        List.filter_eq_self.mpr fun a ha => by simpa using hknotp a ha
      have hnemp : ¬ (p.2.filter (fun x => decide (x ∉ ([k] : List Key)))).isEmpty := by
        rw [hfil, List.isEmpty_iff]
        exact hne p (List.mem_cons_self _ _)
      have hplt : p.1 < t := hp _ (btreeGet_mem hget')
      have hpe : ¬ p.2.isEmpty := by
        rw [List.isEmpty_iff]
        exact hne p (List.mem_cons_self _ _)
      have ihr := ih hrest (fun q hq => hne q (List.mem_cons_of_mem _ hq)) hget'
        (fun q hq => hconf q (List.mem_cons_of_mem _ hq))
      simp only [purgeIdx]
      rw [hfil, if_neg hpe]
      by_cases he : (ks.filter (fun x => decide (x ∉ ([k] : List Key)))).isEmpty
      · rw [if_pos he] at ihr ⊢
        rw [btreeRemove_cons, if_neg hpt, ihr]
      · rw [if_neg he] at ihr ⊢
        rw [btreeRemove_cons, if_neg hpt]
        have hinsert : btreeInsert t (ks.filter (fun x => decide (x ∉ ([k] : List Key))))
            (p :: btreeRemove t rest) =
            p :: btreeInsert t (ks.filter (fun x => decide (x ∉ ([k] : List Key))))
              (btreeRemove t rest) := by
          have h1 : ¬ t < p.1 := Nat.not_lt.mpr (Nat.le_of_lt hplt)
          have h2 : ¬ t = p.1 := fun he => absurd he.symm (Nat.ne_of_lt hplt)
          simp only [btreeInsert, if_neg h1, if_neg h2]
        rw [hinsert, ihr]

end RustMemcached

namespace RustMemcached

/-! ### Characterizing `remove_from_touch`, `remove_from_ttl`, `delete` -/

theorem filter_ne_eq_filter_not_mem (k : Key) (l : List Key) :
    l.filter (fun x => decide (x ≠ k)) = l.filter (fun x => decide (x ∉ ([k] : List Key))) :=
  List.filter_congr fun a _ => by simp

theorem remove_from_touch_eq_purge {mc : Memcached} {k : Key} {t : Instant} {ks : List Key}
    (hs : sortedIdx mc.keys_by_touch)
    (hne : ∀ p ∈ mc.keys_by_touch, p.2 ≠ [])
    (hget : btreeGet t mc.keys_by_touch = some ks)
    (hconf : ∀ p ∈ mc.keys_by_touch, k ∈ p.2 → p.1 = t) :
    mc.remove_from_touch k t = { mc with keys_by_touch := purgeIdx [k] mc.keys_by_touch } := by
  simp only [Memcached.remove_from_touch, hget, Option.getD_some]
  rw [filter_ne_eq_filter_not_mem, purge_single_bucket hs hne hget hconf]
  by_cases he : (ks.filter (fun x => decide (x ∉ ([k] : List Key)))).isEmpty
  · rw [if_pos he, if_pos he]
  · rw [if_neg he, if_neg he]

theorem remove_from_ttl_eq_purge {mc : Memcached} {k : Key} {t : Instant} {ks : List Key}
    (hs : sortedIdx mc.keys_by_ttl)
    (hne : ∀ p ∈ mc.keys_by_ttl, p.2 ≠ [])
    (hget : btreeGet t mc.keys_by_ttl = some ks)
    (hconf : ∀ p ∈ mc.keys_by_ttl, k ∈ p.2 → p.1 = t) :
    mc.remove_from_ttl k (some t) = { mc with keys_by_ttl := purgeIdx [k] mc.keys_by_ttl } := by
  simp only [Memcached.remove_from_ttl, hget, Option.getD_some]
  rw [filter_ne_eq_filter_not_mem, purge_single_bucket hs hne hget hconf]
  by_cases he : (ks.filter (fun x => decide (x ∉ ([k] : List Key)))).isEmpty
  · rw [if_pos he, if_pos he]
  · rw [if_neg he, if_neg he]

theorem delete_absent {mc : Memcached} {k : Key}
    (hget : mapGet k mc.cache = none) : mc.delete k = (none, mc) := by
  simp only [Memcached.delete, hget]

/-- `Inv` gives: every Recency bucket containing `k` is the one at the
stored entry's touch instant. -/
theorem conf_touch {mc : Memcached} {k : Key} {it : Item} (hI : InvT mc)
    (hget : mapGet k mc.cache = some it) :
    ∀ p ∈ mc.keys_by_touch, k ∈ p.2 → p.1 = it.touch := by
  intro p hp hk
  obtain ⟨it', hit', htt⟩ := hI.tCache p hp k hk
  rw [hget] at hit'
  rw [← htt, ← Option.some.inj hit']

/-- `Inv` gives: every Expiry bucket containing `k` is the one at the
stored entry's expiry instant. -/
theorem conf_ttl {mc : Memcached} {k : Key} {it : Item} {t : Instant} (hI : Inv mc)
    (hget : mapGet k mc.cache = some it) (httl : it.ttl = some t) :
    ∀ p ∈ mc.keys_by_ttl, k ∈ p.2 → p.1 = t := by
  intro p hp hk
  obtain ⟨it', hit', htt⟩ := hI.eCache p hp k hk
  rw [hget] at hit'
  rw [← Option.some.inj hit'] at htt
  rw [httl] at htt
  exact (Option.some.inj htt).symm

/-- When the stored entry has no expiry, `k` is in no Expiry bucket, so
purging it is the identity. -/
theorem purge_ttl_id {mc : Memcached} {k : Key} {it : Item} (hI : Inv mc)
    (hget : mapGet k mc.cache = some it) (httl : it.ttl = none) :
    purgeIdx [k] mc.keys_by_ttl = mc.keys_by_ttl := by
  refine purgeIdx_eq_self hI.eNE ?_
  intro p hp x hx hxk
  rw [List.mem_singleton] at hxk
  obtain ⟨it', hit', htt⟩ := hI.eCache p hp x hx
  rw [hxk, hget] at hit'
  rw [← Option.some.inj hit'] at htt
  rw [httl] at htt
  exact Option.noConfusion htt

/-- Full characterization of a successful `delete` under the invariant:
the key leaves the Store, is purged from both secondary indexes (with
empty buckets dropped), and its value length leaves `current_size`. -/
theorem delete_some_eq {mc : Memcached} {k : Key} {it : Item} (hI : Inv mc)
    (hget : mapGet k mc.cache = some it) :
    mc.delete k = (some it.data,
      { limit := mc.limit
        current_size := mc.current_size - it.data.length
        cache := mapRemove k mc.cache
        keys_by_ttl := purgeIdx [k] mc.keys_by_ttl
        keys_by_touch := purgeIdx [k] mc.keys_by_touch }) := by
  obtain ⟨ks, hks0, hcount0⟩ := hI.cTouch (k, it) (mapGet_mem hget)
  have hks : btreeGet it.touch mc.keys_by_touch = some ks := hks0
  have hconfT := conf_touch hI.toInvT hget
  have h2 := @remove_from_touch_eq_purge { mc with cache := mapRemove k mc.cache } k
    it.touch ks hI.tSorted hI.tNE hks hconfT
  cases httl : it.ttl with
  | none =>
    simp only [Memcached.delete, hget, httl, h2]
    rw [purge_ttl_id hI hget httl]
    rfl
  | some t =>
    obtain ⟨kst, hkst0, hcountt0⟩ := hI.cTtl (k, it) (mapGet_mem hget) t httl
    have hkst : btreeGet t mc.keys_by_ttl = some kst := hkst0
    have hconfE := conf_ttl hI hget httl
    have h3 := @remove_from_ttl_eq_purge
      { mc with cache := mapRemove k mc.cache,
                keys_by_touch := purgeIdx [k] mc.keys_by_touch } k
      t kst hI.eSorted hI.eNE hkst hconfE
    simp only [Memcached.delete, hget, httl, h2, h3]

/-- `InvT` is preserved by removing one present key from the Store, the
Recency Index and the size counter (the Expiry Index is arbitrary). -/
theorem InvT_purgeRemove {mc : Memcached} {k : Key} {it : Item} (hIT : InvT mc)
    (hget : mapGet k mc.cache = some it) (anyLimit anySize : Nat) (anyTtl : Idx)
    (hsize : anySize = mc.current_size - it.data.length) :
    InvT { limit := anyLimit
           current_size := anySize
           cache := mapRemove k mc.cache
           keys_by_ttl := anyTtl
           keys_by_touch := purgeIdx [k] mc.keys_by_touch } := by
  have hsum : (mc.cache.map (fun p => p.2.data.length)).sum =
      it.data.length + ((mapRemove k mc.cache).map (fun p => p.2.data.length)).sum := by
    have := sum_split_mapRemove (fun p => p.2.data.length) hIT.nodup hget
    simpa using this
  refine ⟨mapRemove_nodup hIT.nodup, sortedIdx_purgeIdx hIT.tSorted, ?_, ?_, ?_, ?_⟩
  · intro p hp
    exact purgeIdx_NE p hp
  · intro p hp x hx
    rcases mem_purgeIdx_elim hp with ⟨p', hp', h1, h2, _⟩
    rw [h2] at hx
    rw [List.mem_filter] at hx
    rcases hx with ⟨hx', hxk⟩
    have hxk' : x ≠ k := by simpa using hxk
    obtain ⟨it', hit', htt⟩ := hIT.tCache p' hp' x hx'
    refine ⟨it', ?_, by rw [h1, htt]⟩
    show mapGet x (mapRemove k mc.cache) = some it'
    rw [mapGet_mapRemove_ne _ hxk']
    exact hit'
  · intro p hp
    rcases mem_mapRemove.mp hp with ⟨hpmem, hpk⟩
    obtain ⟨ks', hks', hcount'⟩ := hIT.cTouch p hpmem
    have hcf : (ks'.filter (fun y => decide (y ∉ ([k] : List Key)))).count p.1 = ks'.count p.1 :=
      List.count_filter (by simpa using hpk)
    have hmem : p.1 ∈ ks'.filter (fun y => decide (y ∉ ([k] : List Key))) := by
      have : 0 < (ks'.filter (fun y => decide (y ∉ ([k] : List Key)))).count p.1 := by
        rw [hcf, hcount']
        omega
      exact List.count_pos_iff.mp this
    have hnemp : ¬ (ks'.filter (fun y => decide (y ∉ ([k] : List Key)))).isEmpty := by
      rw [List.isEmpty_iff]
      intro he
      rw [he] at hmem
      simp at hmem
    refine ⟨ks'.filter (fun y => decide (y ∉ ([k] : List Key))), ?_, by rw [hcf, hcount']⟩
    show btreeGet p.2.touch (purgeIdx [k] mc.keys_by_touch) = _
    rw [btreeGet_purgeIdx_some hIT.tSorted hks', if_neg hnemp]
  · dsimp only
    rw [hsize, hIT.sizeEq, hsum]
    omega

/-- `delete` preserves the full invariant. -/
theorem Inv_delete {mc : Memcached} (hI : Inv mc) (k : Key) : Inv (mc.delete k).2 := by
  cases hget : mapGet k mc.cache with
  | none => rw [delete_absent hget]; exact hI
  | some it =>
    rw [delete_some_eq hI hget]
    have hIT := InvT_purgeRemove hI.toInvT hget mc.limit
      (mc.current_size - it.data.length) (purgeIdx [k] mc.keys_by_ttl) rfl
    refine ⟨hIT, sortedIdx_purgeIdx hI.eSorted, ?_, ?_, ?_⟩
    · intro p hp
      exact purgeIdx_NE p hp
    · intro p hp x hx
      rcases mem_purgeIdx_elim hp with ⟨p', hp', h1, h2, _⟩
      rw [h2] at hx
      rw [List.mem_filter] at hx
      rcases hx with ⟨hx', hxk⟩
      have hxk' : x ≠ k := by simpa using hxk
      obtain ⟨it', hit', htt⟩ := hI.eCache p' hp' x hx'
      refine ⟨it', ?_, by rw [h1, htt]⟩
      show mapGet x (mapRemove k mc.cache) = some it'
      rw [mapGet_mapRemove_ne _ hxk']
      exact hit'
    · intro p hp t htl
      rcases mem_mapRemove.mp hp with ⟨hpmem, hpk⟩
      obtain ⟨ks', hks', hcount'⟩ := hI.cTtl p hpmem t htl
      have hcf : (ks'.filter (fun y => decide (y ∉ ([k] : List Key)))).count p.1 = ks'.count p.1 :=
        List.count_filter (by simpa using hpk)
      have hmem : p.1 ∈ ks'.filter (fun y => decide (y ∉ ([k] : List Key))) := by
        have : 0 < (ks'.filter (fun y => decide (y ∉ ([k] : List Key)))).count p.1 := by
          rw [hcf, hcount']
          omega
        exact List.count_pos_iff.mp this
      have hnemp : ¬ (ks'.filter (fun y => decide (y ∉ ([k] : List Key)))).isEmpty := by
        rw [List.isEmpty_iff]
        intro he
        rw [he] at hmem
        simp at hmem
      refine ⟨ks'.filter (fun y => decide (y ∉ ([k] : List Key))), ?_, by rw [hcf, hcount']⟩
      show btreeGet t (purgeIdx [k] mc.keys_by_ttl) = _
      rw [btreeGet_purgeIdx_some hI.eSorted hks', if_neg hnemp]

end RustMemcached

namespace RustMemcached

/-! ### Projection and small-step lemmas -/

theorem set_eq (mc : Memcached) (key : Key) (value : Bytes) (ttl : Option Nat)
    (gc_now touch : Instant) :
    mc.set key value ttl gc_now touch =
      (let mcg := if not_enough_space mc value.length then mc.collect_garbage gc_now else mc
       let mce := evictLoop value.length (mcg.cache.length + 1) mcg
       if not_enough_space mce value.length then (false, mce)
       else (true, commitState (mce.delete key).2 key value (ttl.map (fun d => touch + d)) touch)) := by
  rfl

theorem remove_from_touch_cache (mc : Memcached) (k : Key) (t : Instant) :
    (mc.remove_from_touch k t).cache = mc.cache := by
  simp only [Memcached.remove_from_touch]
  split <;> rfl

theorem remove_from_touch_ttlIdx (mc : Memcached) (k : Key) (t : Instant) :
    (mc.remove_from_touch k t).keys_by_ttl = mc.keys_by_ttl := by
  simp only [Memcached.remove_from_touch]
  split <;> rfl

theorem remove_from_touch_size (mc : Memcached) (k : Key) (t : Instant) :
    (mc.remove_from_touch k t).current_size = mc.current_size := by
  simp only [Memcached.remove_from_touch]
  split <;> rfl

theorem remove_from_ttl_cache (mc : Memcached) (k : Key) (o : Option Instant) :
    (mc.remove_from_ttl k o).cache = mc.cache := by
  cases o with
  | none => rfl
  | some t =>
    simp only [Memcached.remove_from_ttl]
    split <;> rfl

theorem remove_from_ttl_touchIdx (mc : Memcached) (k : Key) (o : Option Instant) :
    (mc.remove_from_ttl k o).keys_by_touch = mc.keys_by_touch := by
  cases o with
  | none => rfl
  | some t =>
    simp only [Memcached.remove_from_ttl]
    split <;> rfl

theorem remove_from_ttl_size (mc : Memcached) (k : Key) (o : Option Instant) :
    (mc.remove_from_ttl k o).current_size = mc.current_size := by
  cases o with
  | none => rfl
  | some t =>
    simp only [Memcached.remove_from_ttl]
    split <;> rfl

theorem delete_cache_of_some {mc : Memcached} {k : Key} {it : Item}
    (hget : mapGet k mc.cache = some it) :
    (mc.delete k).2.cache = mapRemove k mc.cache := by
  simp only [Memcached.delete, hget]
  rw [remove_from_ttl_cache, remove_from_touch_cache]

theorem delete_size_le (mc : Memcached) (k : Key) :
    (mc.delete k).2.current_size ≤ mc.current_size := by
  cases hget : mapGet k mc.cache with
  | none => rw [delete_absent hget]
  | some it =>
    simp only [Memcached.delete, hget]
    rw [remove_from_ttl_size, remove_from_touch_size]
    exact Nat.sub_le _ _

theorem delete_isSome_iff (mc : Memcached) (k : Key) :
    (mc.delete k).1.isSome = true ↔ ∃ it, mapGet k mc.cache = some it := by
  cases hget : mapGet k mc.cache with
  | none => rw [delete_absent hget]; simp
  | some it =>
    simp only [Memcached.delete, hget]
    simp

theorem delete_cache_length_of_isSome {mc : Memcached} {k : Key}
    (h : (mc.delete k).1.isSome = true) :
    (mc.delete k).2.cache.length < mc.cache.length := by
  obtain ⟨it, hget⟩ := (delete_isSome_iff mc k).mp h
  rw [delete_cache_of_some hget]
  exact mapRemove_length_lt hget

/-- The fresh engine satisfies the invariant. -/
theorem Inv_new (limit : Nat) : Inv (Memcached.new limit) := by
  refine ⟨⟨?_, ?_, ?_, ?_, ?_, ?_⟩, ?_, ?_, ?_, ?_⟩ <;>
    simp [Memcached.new, cacheNodup, sortedIdx]

/-- Under the invariant, an empty Recency Index forces an empty engine. -/
theorem empty_of_touch_empty {mc : Memcached} (hI : Inv mc)
    (h : mc.keys_by_touch = []) :
    mc.cache = [] ∧ mc.keys_by_ttl = [] ∧ mc.current_size = 0 := by
  have hc : mc.cache = [] := by
    cases hcache : mc.cache with
    | nil => rfl
    | cons p rest =>
      obtain ⟨ks, hks, _⟩ := hI.cTouch p (by rw [hcache]; exact List.mem_cons_self _ _)
      rw [h] at hks
      exact Option.noConfusion hks
  refine ⟨hc, ?_, ?_⟩
  · cases httl : mc.keys_by_ttl with
    | nil => rfl
    | cons p rest =>
      have hp : p ∈ mc.keys_by_ttl := by rw [httl]; exact List.mem_cons_self _ _
      have hne := hI.eNE p hp
      cases hks : p.2 with
      | nil => exact absurd hks hne
      | cons x xs =>
        obtain ⟨it', hit', _⟩ := hI.eCache p hp x (by rw [hks]; exact List.mem_cons_self _ _)
        rw [hc] at hit'
        exact Option.noConfusion hit'
  · rw [hI.sizeEq, hc]
    rfl

/-- Under the invariant, `remove_oldest` on a non-empty Recency Index
deletes the first key of the first bucket and reports success. -/
theorem remove_oldest_cons {mc : Memcached} (hI : Inv mc) {t : Instant}
    {ks : List Key} {rest : Idx} (h : mc.keys_by_touch = (t, ks) :: rest) :
    ∃ k krest, ks = k :: krest ∧ (mc.delete k).1.isSome = true ∧
      mc.remove_oldest = (true, (mc.delete k).2) := by
  have hksne : ks ≠ [] := by
    have := hI.tNE (t, ks) (by rw [h]; exact List.mem_cons_self _ _)
    simpa using this
  cases hks : ks with
  | nil => exact absurd hks hksne
  | cons k krest =>
    obtain ⟨it', hit', _⟩ := hI.tCache (t, ks) (by rw [h]; exact List.mem_cons_self _ _) k
      (by rw [hks]; exact List.mem_cons_self _ _)
    have hsome : (mc.delete k).1.isSome = true :=
      (delete_isSome_iff mc k).mpr ⟨it', hit'⟩
    refine ⟨k, krest, rfl, hsome, ?_⟩
    simp only [Memcached.remove_oldest, h, hks, List.head?]
    rw [Prod.ext_iff]
    exact ⟨hsome, rfl⟩

/-- `remove_oldest` reports failure exactly on the empty Recency Index
(under the invariant), leaving the state unchanged. -/
theorem remove_oldest_false_iff {mc : Memcached} (hI : Inv mc) :
    (mc.remove_oldest).1 = false ↔ mc.keys_by_touch = [] := by
  constructor
  · intro hfalse
    cases h : mc.keys_by_touch with
    | nil => rfl
    | cons p rest =>
      obtain ⟨k, krest, hks, hsome, heq⟩ := remove_oldest_cons hI (h.trans (by rw [← h]))
      rw [heq] at hfalse
      simp at hfalse
  · intro h
    simp only [Memcached.remove_oldest, h, List.head?]

theorem remove_oldest_empty {mc : Memcached} (h : mc.keys_by_touch = []) :
    mc.remove_oldest = (false, mc) := by
  simp only [Memcached.remove_oldest, h, List.head?]

/-- `remove_oldest` preserves the invariant. -/
theorem Inv_remove_oldest {mc : Memcached} (hI : Inv mc) :
    Inv (mc.remove_oldest).2 := by
  cases h : mc.keys_by_touch with
  | nil => rw [remove_oldest_empty h]; exact hI
  | cons p rest =>
    rcases p with ⟨pt, pks⟩
    obtain ⟨k, krest, hks, hsome, heq⟩ := remove_oldest_cons hI h
    rw [heq]
    exact Inv_delete hI k

/-- `evictLoop` preserves the invariant. -/
theorem Inv_evictLoop {v fuel : Nat} {mc : Memcached} (hI : Inv mc) :
    Inv (evictLoop v fuel mc) := by
  induction fuel generalizing mc with
  | zero => exact hI
  | succ n ih =>
    simp only [evictLoop]
    by_cases hns : not_enough_space mc v
    · rw [if_pos hns]
      cases hro : mc.remove_oldest with
      | mk b mc' =>
        cases b with
        | true =>
          have : Inv mc' := by
            have := Inv_remove_oldest hI
            rw [hro] at this
            exact this
          exact ih this
        | false =>
          have : Inv mc' := by
            have := Inv_remove_oldest hI
            rw [hro] at this
            exact this
          exact this
    · rw [if_neg hns]
      exact hI

/-- When the loop stops while space is still insufficient, the Recency
Index has been drained (given enough fuel and the invariant). -/
theorem evictLoop_exit {v fuel : Nat} {mc : Memcached} (hI : Inv mc)
    (hfuel : mc.cache.length < fuel)
    (hns : not_enough_space (evictLoop v fuel mc) v = true) :
    (evictLoop v fuel mc).keys_by_touch = [] := by
  induction fuel generalizing mc with
  | zero => omega
  | succ n ih =>
    simp only [evictLoop] at hns ⊢
    by_cases hns0 : not_enough_space mc v
    · rw [if_pos hns0] at hns ⊢
      cases hro : mc.remove_oldest with
      | mk b mc' =>
        cases b with
        | true =>
          rw [hro] at hns
          dsimp only at hns ⊢
          have hI' : Inv mc' := by
            have := Inv_remove_oldest hI
            rw [hro] at this
            exact this
          have hlen : mc'.cache.length < mc.cache.length := by
            cases h : mc.keys_by_touch with
            | nil => rw [remove_oldest_empty h] at hro; simp at hro
            | cons p rest =>
              rcases p with ⟨pt, pks⟩
              obtain ⟨k, krest, hks, hsome, heq⟩ := remove_oldest_cons hI h
              rw [heq] at hro
              have hmc' : mc' = (mc.delete k).2 := (Prod.ext_iff.mp hro.symm).2
              rw [hmc']
              exact delete_cache_length_of_isSome hsome
          exact ih hI' (by omega) hns
        | false =>
          rw [hro] at hns
          dsimp only at hns ⊢
          have h1 : (mc.remove_oldest).1 = false := by rw [hro]
          have hempty : mc.keys_by_touch = [] := (remove_oldest_false_iff hI).mp h1
          have hmc' : mc' = mc := by
            rw [remove_oldest_empty hempty] at hro
            exact (Prod.ext_iff.mp hro.symm).2
          rw [hmc']
          exact hempty
    · rw [if_neg hns0] at hns
      exact absurd hns hns0

end RustMemcached

namespace RustMemcached

/-! ### The commit phase of `set` preserves the invariant -/

theorem mapGet_none_keys {k : Key} {m : List (Key × Item)}
    (h : mapGet k m = none) : ∀ p ∈ m, p.1 ≠ k := by
  induction m with
  | nil => intro p hp; simp at hp
  | cons q rest ih =>
    intro p hp
    by_cases hq : q.1 = k
    · simp [mapGet, hq] at h
    · simp [mapGet, hq] at h
      rcases List.mem_cons.mp hp with h' | h'
      · rw [h']; exact hq
      · exact ih h p h'

theorem mapGet_cons_self (k : Key) (item : Item) (m : List (Key × Item)) :
    mapGet k ((k, item) :: m) = some item := by
  simp [mapGet]

theorem mapGet_cons_ne {k x : Key} (hxk : ¬ k = x) (item : Item) (m : List (Key × Item)) :
    mapGet x ((k, item) :: m) = mapGet x m := by
  simp [mapGet, hxk]

theorem commitState_none_eq (mcd : Memcached) (k : Key) (v : Bytes) (touch : Instant) :
    commitState mcd k v none touch =
      { limit := mcd.limit
        current_size := mcd.current_size + v.length
        cache := mapInsert k ⟨touch, none, v⟩ mcd.cache
        keys_by_ttl := mcd.keys_by_ttl
        keys_by_touch := btreeInsert touch (((btreeGet touch mcd.keys_by_touch).getD []) ++ [k])
          (btreeRemove touch mcd.keys_by_touch) } := rfl

theorem commitState_some_eq (mcd : Memcached) (k : Key) (v : Bytes) (e touch : Instant) :
    commitState mcd k v (some e) touch =
      { limit := mcd.limit
        current_size := mcd.current_size + v.length
        cache := mapInsert k ⟨touch, some e, v⟩ mcd.cache
        keys_by_ttl := btreeInsert e (((btreeGet e mcd.keys_by_ttl).getD []) ++ [k])
          (btreeRemove e mcd.keys_by_ttl)
        keys_by_touch := btreeInsert touch (((btreeGet touch mcd.keys_by_touch).getD []) ++ [k])
          (btreeRemove touch mcd.keys_by_touch) } := rfl

theorem idxApp_get_self (t : Instant) (k : Key) (idx : Idx) :
    btreeGet t (btreeInsert t (((btreeGet t idx).getD []) ++ [k]) (btreeRemove t idx)) =
      some (((btreeGet t idx).getD []) ++ [k]) :=
  btreeGet_btreeInsert_self _ _ _

theorem idxApp_get_ne {t' t : Instant} (k : Key) (idx : Idx) (h : t' ≠ t) :
    btreeGet t' (btreeInsert t (((btreeGet t idx).getD []) ++ [k]) (btreeRemove t idx)) =
      btreeGet t' idx := by
  rw [btreeGet_btreeInsert_ne _ _ h, btreeGet_btreeRemove_ne _ h]

theorem idxApp_sorted {t : Instant} {k : Key} {idx : Idx} (hs : sortedIdx idx) :
    sortedIdx (btreeInsert t (((btreeGet t idx).getD []) ++ [k]) (btreeRemove t idx)) :=
  sortedIdx_btreeInsert (sortedIdx_btreeRemove hs)

theorem idxApp_mem_elim {p : Instant × List Key} {t : Instant} {k : Key} {idx : Idx}
    (h : p ∈ btreeInsert t (((btreeGet t idx).getD []) ++ [k]) (btreeRemove t idx)) :
    p = (t, ((btreeGet t idx).getD []) ++ [k]) ∨ (p ∈ idx ∧ p.1 ≠ t) := by
  rcases mem_btreeInsert_elim h with h' | h'
  · exact Or.inl h'
  · exact Or.inr (mem_btreeRemove.mp h')

/-- Inserting a fresh key (not in the Store) through the commit phase of
`set` preserves the invariant. -/
theorem Inv_commitState {mcd : Memcached} (hI : Inv mcd) {k : Key} (v : Bytes)
    (ttlI : Option Instant) (touch : Instant)
    (hnone : mapGet k mcd.cache = none) :
    Inv (commitState mcd k v ttlI touch) := by
  have hmr : mapRemove k mcd.cache = mcd.cache := mapRemove_eq_self hnone
  have hkeys := mapGet_none_keys hnone
  -- shared facts about the appended Recency bucket
  have hknotB : ∀ {B0 : List Key}, btreeGet touch mcd.keys_by_touch = some B0 → k ∉ B0 := by
    intro B0 hB0 hkB
    obtain ⟨it', hit', _⟩ := hI.tCache (touch, B0) (btreeGet_mem hB0) k hkB
    rw [hnone] at hit'
    exact Option.noConfusion hit'
  -- the new entry
  cases ttlI with
  | none =>
    rw [commitState_none_eq]
    set item : Item := (⟨touch, none, v⟩ : Item) with hitem
    constructor
    case eSorted => exact hI.eSorted
    case eNE => exact hI.eNE
    case eCache =>
      intro p hp x hx
      obtain ⟨it', hit', htt⟩ := hI.eCache p hp x hx
      have hxk : ¬ k = x := by
        intro he
        rw [← he, hnone] at hit'
        exact Option.noConfusion hit'
      refine ⟨it', ?_, htt⟩
      show mapGet x (mapInsert k item mcd.cache) = some it'
      simp only [mapInsert, hmr]
      rw [mapGet_cons_ne hxk]
      exact hit'
    case cTtl =>
      intro p hp t htl
      simp only [mapInsert, hmr] at hp
      rcases List.mem_cons.mp hp with h' | h'
      · rw [h'] at htl
        exact Option.noConfusion htl
      · obtain ⟨ks', hks', hc'⟩ := hI.cTtl p h' t htl
        exact ⟨ks', hks', hc'⟩
    case toInvT =>
      refine ⟨?_, idxApp_sorted hI.tSorted, ?_, ?_, ?_, ?_⟩
      · show cacheNodup (mapInsert k item mcd.cache)
        simp only [mapInsert, hmr]
        refine List.pairwise_cons.mpr ⟨?_, hI.nodup⟩
        intro p hp
        exact fun he => (hkeys p hp) he.symm
      · intro p hp
        rcases idxApp_mem_elim hp with h' | ⟨h', _⟩
        · rw [h']; simp
        · exact hI.tNE p h'
      · intro p hp x hx
        rcases idxApp_mem_elim hp with h' | ⟨h', hpt⟩
        · rw [h'] at hx ⊢
          rcases List.mem_append.mp hx with hxB | hxk
          · cases hBg : btreeGet touch mcd.keys_by_touch with
            | none => rw [hBg] at hxB; simp at hxB
            | some B0 =>
              rw [hBg] at hxB
              simp only [Option.getD_some] at hxB
              obtain ⟨it', hit', htt⟩ := hI.tCache (touch, B0) (btreeGet_mem hBg) x hxB
              have hxk : ¬ k = x := by
                intro he
                rw [← he, hnone] at hit'
                exact Option.noConfusion hit'
              refine ⟨it', ?_, htt⟩
              show mapGet x (mapInsert k item mcd.cache) = some it'
              simp only [mapInsert, hmr]
              rw [mapGet_cons_ne hxk]
              exact hit'
          · rw [List.mem_singleton] at hxk
            subst hxk
            refine ⟨item, ?_, rfl⟩
            show mapGet x (mapInsert x item mcd.cache) = some item
            simp only [mapInsert, hmr]
            exact mapGet_cons_self _ _ _
        · obtain ⟨it', hit', htt⟩ := hI.tCache p h' x hx
          have hxk : ¬ k = x := by
            intro he
            rw [← he, hnone] at hit'
            exact Option.noConfusion hit'
          refine ⟨it', ?_, htt⟩
          show mapGet x (mapInsert k item mcd.cache) = some it'
          simp only [mapInsert, hmr]
          rw [mapGet_cons_ne hxk]
          exact hit'
      · intro p hp
        simp only [mapInsert, hmr] at hp
        rcases List.mem_cons.mp hp with h' | h'
        · rw [h']
          refine ⟨((btreeGet touch mcd.keys_by_touch).getD []) ++ [k], idxApp_get_self _ _ _, ?_⟩
          rw [List.count_append]
          have hk0 : ((btreeGet touch mcd.keys_by_touch).getD []).count k = 0 := by
            rw [List.count_eq_zero]
            cases hBg : btreeGet touch mcd.keys_by_touch with
            | none => simp
            | some B0 =>
              simp only [Option.getD_some]
              exact hknotB hBg
          rw [hk0]
          simp
        · obtain ⟨ks', hks', hc'⟩ := hI.cTouch p h'
          have hxk : p.1 ≠ k := hkeys p h'
          by_cases hpt : p.2.touch = touch
          · rw [hpt] at hks'
            refine ⟨((btreeGet touch mcd.keys_by_touch).getD []) ++ [k], ?_, ?_⟩
            · rw [hpt]
              exact idxApp_get_self _ _ _
            · rw [hks']
              simp only [Option.getD_some]
              rw [List.count_append, hc']
              have : ([k] : List Key).count p.1 = 0 := by
                rw [List.count_eq_zero]
                simp
                exact fun he => hxk he
              rw [this]
          · refine ⟨ks', ?_, hc'⟩
            rw [idxApp_get_ne _ _ hpt]
            exact hks'
      · show _ + v.length = _
        have : (List.map (fun p => p.2.data.length) (mapInsert k item mcd.cache)).sum =
            v.length + (mcd.cache.map (fun p => p.2.data.length)).sum := by
          simp only [mapInsert, hmr, List.map_cons, List.sum_cons]
        rw [this, hI.sizeEq]
        omega
  | some e =>
    rw [commitState_some_eq]
    set item : Item := (⟨touch, some e, v⟩ : Item) with hitem
    have hknotE : ∀ {B0 : List Key}, btreeGet e mcd.keys_by_ttl = some B0 → k ∉ B0 := by
      intro B0 hB0 hkB
      obtain ⟨it', hit', _⟩ := hI.eCache (e, B0) (btreeGet_mem hB0) k hkB
      rw [hnone] at hit'
      exact Option.noConfusion hit'
    constructor
    case eSorted => exact idxApp_sorted hI.eSorted
    case eNE =>
      intro p hp
      rcases idxApp_mem_elim hp with h' | ⟨h', _⟩
      · rw [h']; simp
      · exact hI.eNE p h'
    case eCache =>
      intro p hp x hx
      rcases idxApp_mem_elim hp with h' | ⟨h', hpt⟩
      · rw [h'] at hx ⊢
        rcases List.mem_append.mp hx with hxB | hxk
        · cases hBg : btreeGet e mcd.keys_by_ttl with
          | none => rw [hBg] at hxB; simp at hxB
          | some B0 =>
            rw [hBg] at hxB
            simp only [Option.getD_some] at hxB
            obtain ⟨it', hit', htt⟩ := hI.eCache (e, B0) (btreeGet_mem hBg) x hxB
            have hxk : ¬ k = x := by
              intro he
              rw [← he, hnone] at hit'
              exact Option.noConfusion hit'
            refine ⟨it', ?_, htt⟩
            show mapGet x (mapInsert k item mcd.cache) = some it'
            simp only [mapInsert, hmr]
            rw [mapGet_cons_ne hxk]
            exact hit'
        · rw [List.mem_singleton] at hxk
          subst hxk
          refine ⟨item, ?_, rfl⟩
          show mapGet x (mapInsert x item mcd.cache) = some item
          simp only [mapInsert, hmr]
          exact mapGet_cons_self _ _ _
      · obtain ⟨it', hit', htt⟩ := hI.eCache p h' x hx
        have hxk : ¬ k = x := by
          intro he
          rw [← he, hnone] at hit'
          exact Option.noConfusion hit'
        refine ⟨it', ?_, htt⟩
        show mapGet x (mapInsert k item mcd.cache) = some it'
        simp only [mapInsert, hmr]
        rw [mapGet_cons_ne hxk]
        exact hit'
    case cTtl =>
      intro p hp t htl
      simp only [mapInsert, hmr] at hp
      rcases List.mem_cons.mp hp with h' | h'
      · rw [h'] at htl ⊢
        have hte : t = e := by
          have : (some e : Option Instant) = some t := htl
          exact (Option.some.inj this).symm
        subst hte
        refine ⟨((btreeGet t mcd.keys_by_ttl).getD []) ++ [k], idxApp_get_self _ _ _, ?_⟩
        rw [List.count_append]
        have hk0 : ((btreeGet t mcd.keys_by_ttl).getD []).count k = 0 := by
          rw [List.count_eq_zero]
          cases hBg : btreeGet t mcd.keys_by_ttl with
          | none => simp
          | some B0 =>
            simp only [Option.getD_some]
            exact hknotE hBg
        rw [hk0]
        simp
      · obtain ⟨ks', hks', hc'⟩ := hI.cTtl p h' t htl
        have hxk : p.1 ≠ k := hkeys p h'
        by_cases hpt : t = e
        · subst hpt
          refine ⟨((btreeGet t mcd.keys_by_ttl).getD []) ++ [k], idxApp_get_self _ _ _, ?_⟩
          rw [hks']
          simp only [Option.getD_some]
          rw [List.count_append, hc']
          have : ([k] : List Key).count p.1 = 0 := by
            rw [List.count_eq_zero]
            simp
            exact fun he => hxk he
          rw [this]
        · refine ⟨ks', ?_, hc'⟩
          rw [idxApp_get_ne _ _ hpt]
          exact hks'
    case toInvT =>
      refine ⟨?_, idxApp_sorted hI.tSorted, ?_, ?_, ?_, ?_⟩
      · show cacheNodup (mapInsert k item mcd.cache)
        simp only [mapInsert, hmr]
        refine List.pairwise_cons.mpr ⟨?_, hI.nodup⟩
        intro p hp
        exact fun he => (hkeys p hp) he.symm
      · intro p hp
        rcases idxApp_mem_elim hp with h' | ⟨h', _⟩
        · rw [h']; simp
        · exact hI.tNE p h'
      · intro p hp x hx
        rcases idxApp_mem_elim hp with h' | ⟨h', hpt⟩
        · rw [h'] at hx ⊢
          rcases List.mem_append.mp hx with hxB | hxk
          · cases hBg : btreeGet touch mcd.keys_by_touch with
            | none => rw [hBg] at hxB; simp at hxB
            | some B0 =>
              rw [hBg] at hxB
              simp only [Option.getD_some] at hxB
              obtain ⟨it', hit', htt⟩ := hI.tCache (touch, B0) (btreeGet_mem hBg) x hxB
              have hxk : ¬ k = x := by
                intro he
                rw [← he, hnone] at hit'
                exact Option.noConfusion hit'
              refine ⟨it', ?_, htt⟩
              show mapGet x (mapInsert k item mcd.cache) = some it'
              simp only [mapInsert, hmr]
              rw [mapGet_cons_ne hxk]
              exact hit'
          · rw [List.mem_singleton] at hxk
            subst hxk
            refine ⟨item, ?_, rfl⟩
            show mapGet x (mapInsert x item mcd.cache) = some item
            simp only [mapInsert, hmr]
            exact mapGet_cons_self _ _ _
        · obtain ⟨it', hit', htt⟩ := hI.tCache p h' x hx
          have hxk : ¬ k = x := by
            intro he
            rw [← he, hnone] at hit'
            exact Option.noConfusion hit'
          refine ⟨it', ?_, htt⟩
          show mapGet x (mapInsert k item mcd.cache) = some it'
          simp only [mapInsert, hmr]
          rw [mapGet_cons_ne hxk]
          exact hit'
      · intro p hp
        simp only [mapInsert, hmr] at hp
        rcases List.mem_cons.mp hp with h' | h'
        · rw [h']
          refine ⟨((btreeGet touch mcd.keys_by_touch).getD []) ++ [k], idxApp_get_self _ _ _, ?_⟩
          rw [List.count_append]
          have hk0 : ((btreeGet touch mcd.keys_by_touch).getD []).count k = 0 := by
            rw [List.count_eq_zero]
            cases hBg : btreeGet touch mcd.keys_by_touch with
            | none => simp
            | some B0 =>
              simp only [Option.getD_some]
              exact hknotB hBg
          rw [hk0]
          simp
        · obtain ⟨ks', hks', hc'⟩ := hI.cTouch p h'
          have hxk : p.1 ≠ k := hkeys p h'
          by_cases hpt : p.2.touch = touch
          · rw [hpt] at hks'
            refine ⟨((btreeGet touch mcd.keys_by_touch).getD []) ++ [k], ?_, ?_⟩
            · rw [hpt]
              exact idxApp_get_self _ _ _
            · rw [hks']
              simp only [Option.getD_some]
              rw [List.count_append, hc']
              have : ([k] : List Key).count p.1 = 0 := by
                rw [List.count_eq_zero]
                simp
                exact fun he => hxk he
              rw [this]
          · refine ⟨ks', ?_, hc'⟩
            rw [idxApp_get_ne _ _ hpt]
            exact hks'
      · show _ + v.length = _
        have : (List.map (fun p => p.2.data.length) (mapInsert k item mcd.cache)).sum =
            v.length + (mcd.cache.map (fun p => p.2.data.length)).sum := by
          simp only [mapInsert, hmr, List.map_cons, List.sum_cons]
        rw [this, hI.sizeEq]
        omega

end RustMemcached

namespace RustMemcached

/-! ### Characterizing `collect_garbage` -/

theorem gcRemoveKey_eq {mc : Memcached} {k : Key} {it : Item} (bt : Instant)
    (hIT : InvT mc) (hget : mapGet k mc.cache = some it) :
    gcRemoveKey bt mc k =
      { limit := mc.limit
        current_size := mc.current_size - it.data.length
        cache := mapRemove k mc.cache
        keys_by_ttl := btreeRemove bt mc.keys_by_ttl
        keys_by_touch := purgeIdx [k] mc.keys_by_touch } := by
  obtain ⟨ks, hks0, hcount0⟩ := hIT.cTouch (k, it) (mapGet_mem hget)
  have hks : btreeGet it.touch mc.keys_by_touch = some ks := hks0
  have hconfT := conf_touch hIT hget
  have h2 := @remove_from_touch_eq_purge { mc with cache := mapRemove k mc.cache } k
    it.touch ks hIT.tSorted hIT.tNE hks hconfT
  simp only [gcRemoveKey, hget, h2]

theorem InvT_gcRemoveKey {mc : Memcached} {k : Key} {it : Item} (bt : Instant)
    (hIT : InvT mc) (hget : mapGet k mc.cache = some it) :
    InvT (gcRemoveKey bt mc k) := by
  rw [gcRemoveKey_eq bt hIT hget]
  exact InvT_purgeRemove hIT hget mc.limit _ _ rfl

theorem keysSize_nil (m : List (Key × Item)) : keysSize [] m = 0 := by
  simp [keysSize]

theorem keysSize_cons_no_key {k : Key} {rm : List Key} {m : List (Key × Item)}
    (hnok : ∀ q ∈ m, q.1 ≠ k) : keysSize (k :: rm) m = keysSize rm m := by
  unfold keysSize
  have : m.filter (fun p => decide (p.1 ∈ k :: rm)) = m.filter (fun p => decide (p.1 ∈ rm)) := by
    refine List.filter_congr fun a ha => ?_
    have := hnok a ha
    simp [List.mem_cons, this]
  rw [this]

theorem keysSize_cons_of_get {k : Key} {rm : List Key} {m : List (Key × Item)} {it : Item}
    (hnd : cacheNodup m) (hget : mapGet k m = some it) :
    keysSize (k :: rm) m = it.data.length + keysSize rm (mapRemove k m) := by
  induction m with
  | nil => simp [mapGet] at hget
  | cons p rest ih =>
    rcases List.pairwise_cons.mp hnd with ⟨hp, hrest⟩
    by_cases hpk : p.1 = k
    · simp [mapGet, hpk] at hget
      have hpe : p = (k, it) := by
        rcases p with ⟨p1, p2⟩
        simp only at hpk hget
        simp [hpk, hget]
      have hnok : ∀ q ∈ rest, q.1 ≠ k := by
        intro q hq
        have := hp q hq
        rw [← hpk]
        exact fun he => this he.symm
      have hmr : mapRemove k rest = rest := by
        refine mapRemove_eq_self (mapGet_none_of_not_mem ?_)
        intro it' hmem
        exact hnok (k, it') hmem rfl
      rw [mapRemove_cons, if_pos hpk, hmr]
      unfold keysSize
      rw [List.filter_cons]
      have hin : decide (p.1 ∈ k :: rm) = true := by simp [hpk]
      rw [hin]
      simp only [List.map_cons, List.sum_cons, if_true]
      have : (rest.filter (fun q => decide (q.1 ∈ k :: rm))) =
          (rest.filter (fun q => decide (q.1 ∈ rm))) := by
        refine List.filter_congr fun a ha => ?_
        have := hnok a ha
        simp [List.mem_cons, this]
      rw [this, hpe]
    · rw [mapRemove_cons, if_neg hpk]
      simp [mapGet, hpk] at hget
      have hih := ih hrest hget
      unfold keysSize
      rw [List.filter_cons, List.filter_cons]
      by_cases hpm : p.1 ∈ rm
      · have h1 : decide (p.1 ∈ k :: rm) = true := by simp [hpm]
        have h2 : decide (p.1 ∈ rm) = true := by simp [hpm]
        rw [h1, h2]
        simp only [List.map_cons, List.sum_cons, if_true]
        unfold keysSize at hih
        omega
      · have h1 : decide (p.1 ∈ k :: rm) = false := by simp [hpm, hpk]
        have h2 : decide (p.1 ∈ rm) = false := by simp [hpm]
        rw [h1, h2]
        simp only [Bool.false_eq_true, if_false]
        unfold keysSize at hih
        omega

theorem filter_remove_cons (k : Key) (rm : List Key) (m : List (Key × Item)) :
    (mapRemove k m).filter (fun p => decide (p.1 ∉ rm)) =
      m.filter (fun p => decide (p.1 ∉ k :: rm)) := by
  rw [mapRemove, List.filter_filter]
  refine (List.filter_congr fun a _ => ?_).symm
  simp [List.mem_cons, not_or, Bool.and_comm]

/-- The flattened form of the nested removal loop of `collect_garbage`. -/
theorem gc_fold_flatten (sets : List (Instant × List Key)) (mc : Memcached) :
    sets.foldl (fun acc p => p.2.foldl (fun a k => gcRemoveKey p.1 a k) acc) mc =
      ((sets.map (fun p => p.2.map (fun k => (p.1, k)))).flatten).foldl
        (fun a q => gcRemoveKey q.1 a q.2) mc := by
  induction sets generalizing mc with
  | nil => rfl
  | cons p rest ih =>
    simp only [List.foldl_cons, List.map_cons, List.flatten_cons, List.foldl_append]
    rw [ih, List.foldl_map]

/-- The removal loop of `collect_garbage`, over any list of
(bucket instant, key) pairs with distinct keys that are all present:
it removes exactly those keys from the Store and the Recency Index,
removes the named Expiry buckets, and subtracts the removed value
lengths. -/
theorem gc_fold_spec (pairs : List (Instant × Key)) (mc : Memcached)
    (hIT : InvT mc)
    (hnd : (pairs.map Prod.snd).Nodup)
    (hin : ∀ q ∈ pairs, ∃ it, mapGet q.2 mc.cache = some it) :
    pairs.foldl (fun a q => gcRemoveKey q.1 a q.2) mc =
      { limit := mc.limit
        current_size := mc.current_size - keysSize (pairs.map Prod.snd) mc.cache
        cache := mc.cache.filter (fun p => decide (p.1 ∉ pairs.map Prod.snd))
        keys_by_ttl := pairs.foldl (fun idx q => btreeRemove q.1 idx) mc.keys_by_ttl
        keys_by_touch := purgeIdx (pairs.map Prod.snd) mc.keys_by_touch } := by
  induction pairs generalizing mc with
  | nil =>
    simp only [List.foldl_nil, List.map_nil]
    have h1 : mc.cache.filter (fun p => decide (p.1 ∉ ([] : List Key))) = mc.cache := by
      apply List.filter_eq_self.mpr
      intro a _
      simp
    have h2 : purgeIdx [] mc.keys_by_touch = mc.keys_by_touch := by
      refine purgeIdx_eq_self hIT.tNE ?_
      intro p _ x _
      simp
    rw [h1, h2, keysSize_nil]
    rfl
  | cons q rest ih =>
    obtain ⟨it, hget⟩ := hin q (List.mem_cons_self _ _)
    have hknot : q.2 ∉ rest.map Prod.snd := by
      have := hnd
      rw [List.map_cons] at this
      exact (List.nodup_cons.mp this).1
    have hndr : (rest.map Prod.snd).Nodup := by
      have := hnd
      rw [List.map_cons] at this
      exact (List.nodup_cons.mp this).2
    simp only [List.foldl_cons]
    rw [gcRemoveKey_eq q.1 hIT hget]
    set S1 : Memcached :=
      { limit := mc.limit
        current_size := mc.current_size - it.data.length
        cache := mapRemove q.2 mc.cache
        keys_by_ttl := btreeRemove q.1 mc.keys_by_ttl
        keys_by_touch := purgeIdx [q.2] mc.keys_by_touch } with hS1
    have hIT1 : InvT S1 := InvT_purgeRemove hIT hget mc.limit _ _ rfl
    have hin1 : ∀ q' ∈ rest, ∃ it', mapGet q'.2 S1.cache = some it' := by
      intro q' hq'
      obtain ⟨it', hit'⟩ := hin q' (List.mem_cons_of_mem _ hq')
      refine ⟨it', ?_⟩
      show mapGet q'.2 (mapRemove q.2 mc.cache) = some it'
      rw [mapGet_mapRemove_ne]
      · exact hit'
      · intro he
        exact hknot (he ▸ List.mem_map_of_mem Prod.snd hq')
    rw [ih S1 hIT1 hndr hin1]
    have hc : S1.cache.filter (fun p => decide (p.1 ∉ rest.map Prod.snd)) =
        mc.cache.filter (fun p => decide (p.1 ∉ (q :: rest).map Prod.snd)) := by
      show (mapRemove q.2 mc.cache).filter _ = _
      rw [filter_remove_cons, List.map_cons]
    have hsz : S1.current_size - keysSize (rest.map Prod.snd) S1.cache =
        mc.current_size - keysSize ((q :: rest).map Prod.snd) mc.cache := by
      show mc.current_size - it.data.length - keysSize (rest.map Prod.snd) (mapRemove q.2 mc.cache) = _
      rw [List.map_cons, keysSize_cons_of_get hIT.nodup hget]
      omega
    have ht : purgeIdx (rest.map Prod.snd) S1.keys_by_touch =
        purgeIdx ((q :: rest).map Prod.snd) mc.keys_by_touch := by
      show purgeIdx (rest.map Prod.snd) (purgeIdx [q.2] mc.keys_by_touch) = _
      rw [purgeIdx_purgeIdx, List.map_cons]
      rfl
    rw [hc, hsz, ht]

end RustMemcached

namespace RustMemcached

theorem takeWhile_sorted_eq_filter {now : Instant} {idx : Idx} (hs : sortedIdx idx) :
    idx.takeWhile (fun p => decide (p.1 < now)) = idx.filter (fun p => decide (p.1 < now)) := by
  induction idx with
  | nil => rfl
  | cons p rest ih =>
    rcases List.pairwise_cons.mp hs with ⟨hp, hrest⟩
    by_cases hlt : p.1 < now
    · simp [List.takeWhile_cons, List.filter_cons, hlt, ih hrest]
    · have hfil : rest.filter (fun p => decide (p.1 < now)) = [] := by
        rw [List.filter_eq_nil_iff]
        intro a ha
        have h2 : p.1 < a.1 := hp _ ha
        simp only [decide_eq_true_eq]
        intro h3
        exact hlt (lt_trans h2 h3)
      simp [List.takeWhile_cons, List.filter_cons, hlt, hfil]

theorem dropWhile_sorted_eq_filter {now : Instant} {idx : Idx} (hs : sortedIdx idx) :
    idx.dropWhile (fun p => decide (p.1 < now)) = idx.filter (fun p => decide (¬ p.1 < now)) := by
  induction idx with
  | nil => rfl
  | cons p rest ih =>
    rcases List.pairwise_cons.mp hs with ⟨hp, hrest⟩
    by_cases hlt : p.1 < now
    · simp [List.dropWhile_cons, List.filter_cons, hlt, ih hrest]
    · have hfil : rest.filter (fun q => decide (now ≤ q.1)) = rest := by
        rw [List.filter_eq_self]
        intro a ha
        have h2 : p.1 < a.1 := hp _ ha
        simp only [decide_eq_true_eq]
        exact le_trans (Nat.le_of_not_lt hlt) (Nat.le_of_lt h2)
      simp [List.dropWhile_cons, List.filter_cons, hlt, hfil, Nat.le_of_not_lt hlt]

theorem blankExpired_eq (now : Instant) (idx : Idx) :
    blankExpired now idx =
      (idx.takeWhile (fun p => decide (p.1 < now))).map (fun p => (p.1, ([] : List Key))) ++
        idx.dropWhile (fun p => decide (p.1 < now)) := by
  induction idx with
  | nil => rfl
  | cons p rest ih =>
    by_cases hlt : p.1 < now
    · simp [blankExpired, hlt, List.takeWhile_cons, List.dropWhile_cons, ih]
    · simp [blankExpired, hlt, List.takeWhile_cons, List.dropWhile_cons]

theorem foldl_btreeRemove (l : List (Instant × Key)) (idx : Idx) :
    l.foldl (fun a q => btreeRemove q.1 a) idx =
      idx.filter (fun p => decide (p.1 ∉ l.map Prod.fst)) := by
  induction l generalizing idx with
  | nil =>
    simp only [List.foldl_nil, List.map_nil]
    symm
    rw [List.filter_eq_self]
    intro a _
    simp
  | cons q rest ih =>
    simp only [List.foldl_cons]
    rw [ih, btreeRemove, List.filter_filter, List.map_cons]
    refine List.filter_congr fun a _ => ?_
    by_cases ha : a.1 = q.1 <;> by_cases hm : a.1 ∈ rest.map Prod.fst <;>
      simp [ha, hm, List.mem_cons]

end RustMemcached

namespace RustMemcached

theorem mem_expired_pairs {now : Instant} {mc : Memcached} {q : Instant × Key}
    (h : q ∈ ((mc.keys_by_ttl.takeWhile (fun p => decide (p.1 < now))).map
        (fun p => p.2.map (fun k => (p.1, k)))).flatten) :
    ∃ p, p ∈ mc.keys_by_ttl.takeWhile (fun p => decide (p.1 < now)) ∧ q.1 = p.1 ∧ q.2 ∈ p.2 := by
  rw [List.mem_flatten] at h
  rcases h with ⟨l, hl, hql⟩
  rw [List.mem_map] at hl
  rcases hl with ⟨p, hp, rfl⟩
  rw [List.mem_map] at hql
  rcases hql with ⟨k, hk, rfl⟩
  exact ⟨p, hp, rfl, hk⟩

theorem pairs_mem_intro {now : Instant} {mc : Memcached} {p : Instant × List Key} {k : Key}
    (hp : p ∈ mc.keys_by_ttl.takeWhile (fun p => decide (p.1 < now))) (hk : k ∈ p.2) :
    (p.1, k) ∈ ((mc.keys_by_ttl.takeWhile (fun p => decide (p.1 < now))).map
        (fun p => p.2.map (fun k => (p.1, k)))).flatten := by
  rw [List.mem_flatten]
  exact ⟨p.2.map (fun k => (p.1, k)), List.mem_map_of_mem _ hp, List.mem_map_of_mem _ hk⟩

theorem pairs_map_snd (now : Instant) (mc : Memcached) :
    (((mc.keys_by_ttl.takeWhile (fun p => decide (p.1 < now))).map
        (fun p => p.2.map (fun k => (p.1, k)))).flatten).map Prod.snd = expiredKeys now mc := by
  rw [List.map_flatten, List.map_map]
  unfold expiredKeys
  congr 1
  refine List.map_congr_left fun p _ => ?_
  simp [List.map_map, Function.comp]

theorem expiredKeys_nodup {mc : Memcached} (hI : Inv mc) (now : Instant) :
    (expiredKeys now mc).Nodup := by
  unfold expiredKeys
  apply List.nodup_flatten.mpr
  constructor
  · intro l hl
    rcases List.mem_map.mp hl with ⟨p, hp, rfl⟩
    have hpmem : p ∈ mc.keys_by_ttl := (List.takeWhile_sublist _).subset hp
    have hget : btreeGet p.1 mc.keys_by_ttl = some p.2 :=
      btreeGet_eq_some_of_mem hI.eSorted hpmem
    rw [List.nodup_iff_count_le_one]
    intro a
    by_cases ha : a ∈ p.2
    · obtain ⟨it, hit, htt⟩ := hI.eCache p hpmem a ha
      obtain ⟨ks', hks', hc'⟩ := hI.cTtl (a, it) (mapGet_mem hit) p.1 htt
      have he : ks' = p.2 := Option.some.inj (hks'.symm.trans hget)
      rw [he] at hc'
      rw [hc']
    · rw [List.count_eq_zero.mpr ha]
      omega
  · rw [List.pairwise_map]
    have hsp : sortedIdx (mc.keys_by_ttl.takeWhile (fun p => decide (p.1 < now))) :=
      List.Pairwise.sublist (List.takeWhile_sublist _) hI.eSorted
    refine List.Pairwise.imp_of_mem ?_ hsp
    intro a b ha hb hlt
    intro k hka hkb
    have hamem : a ∈ mc.keys_by_ttl := (List.takeWhile_sublist _).subset ha
    have hbmem : b ∈ mc.keys_by_ttl := (List.takeWhile_sublist _).subset hb
    obtain ⟨it, hit, htt⟩ := hI.eCache a hamem k hka
    obtain ⟨it', hit', htt'⟩ := hI.eCache b hbmem k hkb
    rw [hit] at hit'
    rw [← Option.some.inj hit'] at htt'
    rw [htt] at htt'
    have : a.1 = b.1 := Option.some.inj htt'
    exact absurd this (Nat.ne_of_lt hlt)

/-- The central characterization: `collect_garbage` computes exactly the
specification function `gcSpec` on every state satisfying the
invariant. -/
theorem collect_garbage_eq {mc : Memcached} (hI : Inv mc) (now : Instant) :
    mc.collect_garbage now = gcSpec now mc := by
  have hIT1 : InvT { mc with keys_by_ttl := blankExpired now mc.keys_by_ttl } :=
    ⟨hI.nodup, hI.tSorted, hI.tNE, hI.tCache, hI.cTouch, hI.sizeEq⟩
  have hnd : ((((mc.keys_by_ttl.takeWhile (fun p => decide (p.1 < now))).map
      (fun p => p.2.map (fun k => (p.1, k)))).flatten).map Prod.snd).Nodup := by
    rw [pairs_map_snd]
    exact expiredKeys_nodup hI now
  have hin : ∀ q ∈ ((mc.keys_by_ttl.takeWhile (fun p => decide (p.1 < now))).map
      (fun p => p.2.map (fun k => (p.1, k)))).flatten,
      ∃ it, mapGet q.2 ({ mc with keys_by_ttl := blankExpired now mc.keys_by_ttl }).cache = some it := by
    intro q hq
    obtain ⟨p, hp, hq1, hq2⟩ := mem_expired_pairs hq
    have hpmem : p ∈ mc.keys_by_ttl := (List.takeWhile_sublist _).subset hp
    obtain ⟨it, hit, _⟩ := hI.eCache p hpmem q.2 hq2
    exact ⟨it, hit⟩
  simp only [Memcached.collect_garbage]
  rw [gc_fold_flatten, gc_fold_spec _ _ hIT1 hnd hin]
  dsimp only
  -- field equalities against `gcSpec`
  have hsnd := pairs_map_snd now mc
  have httl : (((mc.keys_by_ttl.takeWhile (fun p => decide (p.1 < now))).map
      (fun p => p.2.map (fun k => (p.1, k)))).flatten).foldl
        (fun idx q => btreeRemove q.1 idx) (blankExpired now mc.keys_by_ttl) =
      mc.keys_by_ttl.filter (fun p => decide (¬ p.1 < now)) := by
    rw [foldl_btreeRemove, blankExpired_eq, List.filter_append]
    have h1 : ((mc.keys_by_ttl.takeWhile (fun p => decide (p.1 < now))).map
        (fun p => (p.1, ([] : List Key)))).filter
          (fun p => decide (p.1 ∉ (((mc.keys_by_ttl.takeWhile (fun p => decide (p.1 < now))).map
            (fun p => p.2.map (fun k => (p.1, k)))).flatten).map Prod.fst)) = [] := by
      rw [List.filter_eq_nil_iff]
      intro a ha
      rcases List.mem_map.mp ha with ⟨p, hp, rfl⟩
      have hpmem : p ∈ mc.keys_by_ttl := (List.takeWhile_sublist _).subset hp
      have hne := hI.eNE p hpmem
      obtain ⟨k0, hk0⟩ := List.exists_mem_of_ne_nil p.2 hne
      have hk0p : (p.1, k0) ∈ ((mc.keys_by_ttl.takeWhile (fun p => decide (p.1 < now))).map
          (fun p => p.2.map (fun k => (p.1, k)))).flatten := pairs_mem_intro hp hk0
      simp only [decide_eq_true_eq, not_not]
      exact List.mem_map_of_mem Prod.fst hk0p
    have h2 : (mc.keys_by_ttl.dropWhile (fun p => decide (p.1 < now))).filter
        (fun p => decide (p.1 ∉ (((mc.keys_by_ttl.takeWhile (fun p => decide (p.1 < now))).map
          (fun p => p.2.map (fun k => (p.1, k)))).flatten).map Prod.fst)) =
        mc.keys_by_ttl.dropWhile (fun p => decide (p.1 < now)) := by
      rw [List.filter_eq_self]
      intro a ha
      rw [dropWhile_sorted_eq_filter hI.eSorted] at ha
      rcases List.mem_filter.mp ha with ⟨hamem, hanot⟩
      simp only [decide_eq_true_eq] at hanot ⊢
      intro hmem
      rcases List.mem_map.mp hmem with ⟨q, hq, hfst⟩
      obtain ⟨p, hp, hq1, _⟩ := mem_expired_pairs hq
      have hplt : p.1 < now := by
        have := List.mem_takeWhile_imp hp
        simpa using this
      exact hanot (by rw [← hfst, hq1]; exact hplt)
    rw [h1, h2, dropWhile_sorted_eq_filter hI.eSorted]
    simp
  rw [httl, hsnd]
  rfl

end RustMemcached

namespace RustMemcached

theorem mem_expiredKeys_elim {now : Instant} {mc : Memcached} {k : Key}
    (h : k ∈ expiredKeys now mc) :
    ∃ p, p ∈ mc.keys_by_ttl ∧ p.1 < now ∧ k ∈ p.2 := by
  unfold expiredKeys at h
  rw [List.mem_flatten] at h
  rcases h with ⟨l, hl, hkl⟩
  rw [List.mem_map] at hl
  rcases hl with ⟨p, hp, rfl⟩
  refine ⟨p, (List.takeWhile_sublist _).subset hp, ?_, hkl⟩
  have := List.mem_takeWhile_imp hp
  simpa using this

theorem mem_expiredKeys_intro {now : Instant} {mc : Memcached} {k : Key}
    {t : Instant} {ks : List Key} (hs : sortedIdx mc.keys_by_ttl)
    (hmem : (t, ks) ∈ mc.keys_by_ttl) (hlt : t < now) (hk : k ∈ ks) :
    k ∈ expiredKeys now mc := by
  unfold expiredKeys
  rw [List.mem_flatten]
  refine ⟨ks, ?_, hk⟩
  have hmem' : (t, ks) ∈ mc.keys_by_ttl.takeWhile (fun p => decide (p.1 < now)) := by
    rw [takeWhile_sorted_eq_filter hs]
    rw [List.mem_filter]
    exact ⟨hmem, by simpa using hlt⟩
  exact List.mem_map_of_mem Prod.snd hmem'

/-- Under the invariant, a stored key is among the expired keys exactly
when its entry's expiry is set and strictly before `now`. -/
theorem mem_expiredKeys_iff {now : Instant} {mc : Memcached} {k : Key} {it : Item}
    (hI : Inv mc) (hget : mapGet k mc.cache = some it) :
    k ∈ expiredKeys now mc ↔ ∃ t, it.ttl = some t ∧ t < now := by
  constructor
  · intro h
    obtain ⟨p, hpmem, hplt, hkp⟩ := mem_expiredKeys_elim h
    obtain ⟨it', hit', htt⟩ := hI.eCache p hpmem k hkp
    rw [hget] at hit'
    rw [← Option.some.inj hit'] at htt
    exact ⟨p.1, htt, hplt⟩
  · rintro ⟨t, htt, hlt⟩
    obtain ⟨ks, hks, hc⟩ := hI.cTtl (k, it) (mapGet_mem hget) t htt
    have hkmem : k ∈ ks := by
      have : 0 < ks.count k := by rw [hc]; omega
      exact List.count_pos_iff.mp this
    exact mem_expiredKeys_intro hI.eSorted (btreeGet_mem hks) hlt hkmem

theorem mapGet_filter_not_mem {k : Key} {rm : List Key} {m : List (Key × Item)}
    (hk : k ∉ rm) :
    mapGet k (m.filter (fun p => decide (p.1 ∉ rm))) = mapGet k m := by
  induction m with
  | nil => rfl
  | cons p rest ih =>
    rw [List.filter_cons]
    by_cases hp : p.1 ∈ rm
    · have hpk : ¬ p.1 = k := fun he => hk (he ▸ hp)
      have hd : decide (p.1 ∉ rm) = false := by simp [hp]
      rw [hd]
      simp only [Bool.false_eq_true, if_false]
      rw [ih]
      simp [mapGet, hpk]
    · have hd : decide (p.1 ∉ rm) = true := by simp [hp]
      rw [hd]
      simp only [if_true]
      by_cases hpk : p.1 = k
      · simp [mapGet, hpk]
      · simp only [mapGet]
        rw [if_neg hpk, if_neg hpk]
        exact ih

theorem mapGet_filter_mem {k : Key} {rm : List Key} {m : List (Key × Item)}
    (hk : k ∈ rm) :
    mapGet k (m.filter (fun p => decide (p.1 ∉ rm))) = none := by
  refine mapGet_none_of_not_mem fun it hmem => ?_
  rcases List.mem_filter.mp hmem with ⟨_, hdec⟩
  simp only [decide_eq_true_eq] at hdec
  exact hdec hk

theorem btreeGet_filter_of_pred {t : Instant} {m : Idx} {ks : List Key}
    (hs : sortedIdx m) (hget : btreeGet t m = some ks)
    {pred : Instant × List Key → Bool} (hpred : pred (t, ks) = true) :
    btreeGet t (m.filter pred) = some ks := by
  induction m with
  | nil => simp [btreeGet] at hget
  | cons p rest ih =>
    rcases List.pairwise_cons.mp hs with ⟨hp, hrest⟩
    rw [List.filter_cons]
    by_cases hpt : p.1 = t
    · have hpks : p = (t, ks) := by
        have : p.2 = ks := by simpa [btreeGet, hpt] using hget
        rcases p with ⟨p1, p2⟩
        simp only at hpt this
        simp [hpt, this]
      rw [hpks, hpred]
      simp [btreeGet]
    · simp only [btreeGet, if_neg hpt] at hget
      by_cases hpp : pred p = true
      · rw [hpp]
        simp only [if_true]
        rw [btreeGet, if_neg hpt]
        exact ih hrest hget
      · rw [Bool.not_eq_true] at hpp
        rw [hpp]
        simp only [Bool.false_eq_true, if_false]
        exact ih hrest hget

theorem sum_split_pred (f : Key × Item → Nat) (q : Key × Item → Bool)
    (m : List (Key × Item)) :
    (m.map f).sum = ((m.filter q).map f).sum + ((m.filter (fun a => !(q a))).map f).sum := by
  induction m with
  | nil => rfl
  | cons p rest ih =>
    rw [List.map_cons, List.sum_cons, List.filter_cons, List.filter_cons]
    by_cases hq : q p = true
    · rw [hq]
      simp only [Bool.not_true, Bool.false_eq_true, if_false, if_true, List.map_cons,
        List.sum_cons]
      omega
    · rw [Bool.not_eq_true] at hq
      rw [hq]
      simp only [Bool.not_false, Bool.false_eq_true, if_false, if_true, List.map_cons,
        List.sum_cons]
      omega

/-- `gcSpec` preserves the invariant. -/
theorem Inv_gcSpec {mc : Memcached} (hI : Inv mc) (now : Instant) :
    Inv (gcSpec now mc) := by
  simp only [gcSpec]
  constructor
  case eSorted =>
    exact List.Pairwise.sublist (List.filter_sublist _) hI.eSorted
  case eNE =>
    intro p hp
    exact hI.eNE p (List.mem_filter.mp hp).1
  case eCache =>
    intro p hp x hx
    rcases List.mem_filter.mp hp with ⟨hpmem, hpnow⟩
    simp only [decide_eq_true_eq] at hpnow
    obtain ⟨it', hit', htt⟩ := hI.eCache p hpmem x hx
    have hxrm : x ∉ expiredKeys now mc := by
      intro hmem
      obtain ⟨t', htt', hlt'⟩ := (mem_expiredKeys_iff hI hit').mp hmem
      rw [htt] at htt'
      rw [← Option.some.inj htt'] at hlt'
      exact hpnow hlt'
    refine ⟨it', ?_, htt⟩
    show mapGet x (mc.cache.filter _) = some it'
    rw [mapGet_filter_not_mem hxrm]
    exact hit'
  case cTtl =>
    intro p hp t htl
    rcases List.mem_filter.mp hp with ⟨hpmem, hprm⟩
    simp only [decide_eq_true_eq] at hprm
    obtain ⟨ks, hks, hc⟩ := hI.cTtl p hpmem t htl
    have hnow : ¬ t < now := by
      intro hlt
      obtain ⟨it0, hit0⟩ : ∃ it0, mapGet p.1 mc.cache = some it0 := by
        rcases List.mem_filter.mp hp with ⟨hm, _⟩
        exact ⟨p.2, mapGet_eq_some_of_mem hI.nodup hm⟩
      have hrm : p.1 ∈ expiredKeys now mc := by
        have h0 : it0 = p.2 := by
          have := mapGet_eq_some_of_mem hI.nodup hpmem
          rw [hit0] at this
          exact Option.some.inj this
        refine (mem_expiredKeys_iff hI hit0).mpr ⟨t, ?_, hlt⟩
        rw [h0]
        exact htl
      exact hprm hrm
    refine ⟨ks, ?_, hc⟩
    exact btreeGet_filter_of_pred hI.eSorted hks (by simpa using hnow)
  case toInvT =>
    constructor
    case nodup =>
      exact List.Pairwise.sublist (List.filter_sublist _) hI.nodup
    case tSorted => exact sortedIdx_purgeIdx hI.tSorted
    case tNE =>
      intro p hp
      exact purgeIdx_NE p hp
    case tCache =>
      intro p hp x hx
      rcases mem_purgeIdx_elim hp with ⟨p', hp', h1, h2, _⟩
      rw [h2] at hx
      rcases List.mem_filter.mp hx with ⟨hx', hxd⟩
      simp only [decide_eq_true_eq] at hxd
      obtain ⟨it', hit', htt⟩ := hI.tCache p' hp' x hx'
      refine ⟨it', ?_, by rw [h1, htt]⟩
      show mapGet x (mc.cache.filter _) = some it'
      rw [mapGet_filter_not_mem hxd]
      exact hit'
    case cTouch =>
      intro p hp
      rcases List.mem_filter.mp hp with ⟨hpmem, hpd⟩
      simp only [decide_eq_true_eq] at hpd
      obtain ⟨ks', hks', hc'⟩ := hI.cTouch p hpmem
      have hcf : (ks'.filter (fun y => decide (y ∉ expiredKeys now mc))).count p.1 = ks'.count p.1 :=
        List.count_filter (by simpa using hpd)
      have hmem : p.1 ∈ ks'.filter (fun y => decide (y ∉ expiredKeys now mc)) := by
        have : 0 < (ks'.filter (fun y => decide (y ∉ expiredKeys now mc))).count p.1 := by
          rw [hcf, hc']
          omega
        exact List.count_pos_iff.mp this
      have hnemp : ¬ (ks'.filter (fun y => decide (y ∉ expiredKeys now mc))).isEmpty := by
        rw [List.isEmpty_iff]
        intro he
        rw [he] at hmem
        simp at hmem
      refine ⟨ks'.filter (fun y => decide (y ∉ expiredKeys now mc)), ?_, by rw [hcf, hc']⟩
      show btreeGet p.2.touch (purgeIdx (expiredKeys now mc) mc.keys_by_touch) = _
      rw [btreeGet_purgeIdx_some hI.tSorted hks', if_neg hnemp]
    case sizeEq =>
      dsimp only
      show mc.current_size - keysSize (expiredKeys now mc) mc.cache = _
      have hsplit := sum_split_pred (fun p => p.2.data.length)
        (fun p => decide (p.1 ∈ expiredKeys now mc)) mc.cache
      have hcong : mc.cache.filter (fun a => !(decide (a.1 ∈ expiredKeys now mc))) =
          mc.cache.filter (fun a => decide (a.1 ∉ expiredKeys now mc)) := by
        refine List.filter_congr fun a _ => ?_
        simp
      rw [hcong] at hsplit
      unfold keysSize
      rw [hI.sizeEq, hsplit]
      omega

end RustMemcached

namespace RustMemcached

/-- `collect_garbage` preserves the invariant. -/
theorem Inv_collect_garbage {mc : Memcached} (hI : Inv mc) (now : Instant) :
    Inv (mc.collect_garbage now) := by
  rw [collect_garbage_eq hI now]
  exact Inv_gcSpec hI now

theorem mapGet_delete_self (mc : Memcached) (k : Key) :
    mapGet k (mc.delete k).2.cache = none := by
  cases hget : mapGet k mc.cache with
  | none => rw [delete_absent hget]; exact hget
  | some it =>
    rw [delete_cache_of_some hget]
    exact mapGet_mapRemove_self k mc.cache

/-- `set` preserves the invariant. -/
theorem Inv_set {mc : Memcached} (hI : Inv mc) (k : Key) (v : Bytes) (ttl : Option Nat)
    (g t : Instant) : Inv (mc.set k v ttl g t).2 := by
  rw [set_eq]
  have hIg : Inv (if not_enough_space mc v.length then mc.collect_garbage g else mc) := by
    by_cases h : not_enough_space mc v.length
    · rw [if_pos h]; exact Inv_collect_garbage hI g
    · rw [if_neg h]; exact hI
  have hIe : Inv (evictLoop v.length
      ((if not_enough_space mc v.length then mc.collect_garbage g else mc).cache.length + 1)
      (if not_enough_space mc v.length then mc.collect_garbage g else mc)) :=
    Inv_evictLoop hIg
  by_cases h2 : not_enough_space (evictLoop v.length
      ((if not_enough_space mc v.length then mc.collect_garbage g else mc).cache.length + 1)
      (if not_enough_space mc v.length then mc.collect_garbage g else mc)) v.length
  · simp only [h2, if_true]
    exact hIe
  · simp only [h2, Bool.false_eq_true, if_false]
    exact Inv_commitState (Inv_delete hIe k) v _ t (mapGet_delete_self _ k)

/-- Every public mutating operation preserves the invariant. -/
theorem Inv_applyOp {mc : Memcached} (hI : Inv mc) (op : Op) : Inv (applyOp mc op) := by
  cases op with
  | setOp k v ttl g t => exact Inv_set hI k v ttl g t
  | delOp k => exact Inv_delete hI k
  | gcOp n => exact Inv_collect_garbage hI n

/-- Every state reachable from a fresh engine satisfies the invariant. -/
theorem Inv_run (limit : Nat) (ops : List Op) : Inv (run limit ops) := by
  unfold run
  induction ops using List.reverseRecOn with
  | nil => exact Inv_new limit
  | append_singleton front op ih =>
    rw [List.foldl_append, List.foldl_cons, List.foldl_nil]
    exact Inv_applyOp ih op

theorem Inv_implies_SpecInvariants {mc : Memcached} (hI : Inv mc) : SpecInvariants mc := by
  refine ⟨hI.cTouch, hI.cTtl, ?_, ?_, hI.tNE, hI.eNE, hI.sizeEq⟩
  · intro p hp x hx
    obtain ⟨it, hit, _⟩ := hI.tCache p hp x hx
    exact ⟨it, hit⟩
  · intro p hp x hx
    obtain ⟨it, hit, _⟩ := hI.eCache p hp x hx
    exact ⟨it, hit⟩

/-- C1: after every sequence of public operations (`set`, `delete`,
`collect_garbage`) starting from a fresh engine, the cross-structure
invariants 1-5 of spec section 3 hold: every stored key appears exactly
once in the Recency bucket at its touch instant; every stored key with an
expiry appears exactly once in the Expiry bucket at that expiry; every
key in either secondary index is present in the Store; no bucket of
either secondary index is empty; and `current_size` equals the sum of the
stored value byte-lengths. -/
theorem C1_invariants_hold (limit : Nat) (ops : List Op) :
    SpecInvariants (run limit ops) :=
  Inv_implies_SpecInvariants (Inv_run limit ops)

end RustMemcached

namespace RustMemcached

/-! ### Limit preservation and commit size -/

theorem remove_from_touch_limit (mc : Memcached) (k : Key) (t : Instant) :
    (mc.remove_from_touch k t).limit = mc.limit := by
  simp only [Memcached.remove_from_touch]
  split <;> rfl

theorem remove_from_ttl_limit (mc : Memcached) (k : Key) (o : Option Instant) :
    (mc.remove_from_ttl k o).limit = mc.limit := by
  cases o with
  | none => rfl
  | some t =>
    simp only [Memcached.remove_from_ttl]
    split <;> rfl

theorem delete_limit (mc : Memcached) (k : Key) : (mc.delete k).2.limit = mc.limit := by
  cases hget : mapGet k mc.cache with
  | none => rw [delete_absent hget]
  | some it =>
    simp only [Memcached.delete, hget]
    rw [remove_from_ttl_limit, remove_from_touch_limit]

theorem remove_oldest_limit (mc : Memcached) : (mc.remove_oldest).2.limit = mc.limit := by
  simp only [Memcached.remove_oldest]
  cases h : mc.keys_by_touch.head? with
  | none => rfl
  | some p =>
    rcases p with ⟨t, keys⟩
    dsimp only
    cases hk : keys.head? with
    | none => rfl
    | some k => exact delete_limit mc k

theorem evictLoop_limit (v fuel : Nat) (mc : Memcached) :
    (evictLoop v fuel mc).limit = mc.limit := by
  induction fuel generalizing mc with
  | zero => rfl
  | succ n ih =>
    simp only [evictLoop]
    by_cases hns : not_enough_space mc v
    · rw [if_pos hns]
      cases hro : mc.remove_oldest with
      | mk b mc' =>
        have hl : mc'.limit = mc.limit := by
          have := remove_oldest_limit mc
          rw [hro] at this
          exact this
        cases b with
        | true => rw [ih, hl]
        | false => exact hl
    · rw [if_neg hns]

theorem commitState_size (mcd : Memcached) (k : Key) (v : Bytes) (ttlI : Option Instant)
    (t : Instant) : (commitState mcd k v ttlI t).current_size = mcd.current_size + v.length := by
  cases ttlI <;> rfl

theorem commitState_limit (mcd : Memcached) (k : Key) (v : Bytes) (ttlI : Option Instant)
    (t : Instant) : (commitState mcd k v ttlI t).limit = mcd.limit := by
  cases ttlI <;> rfl

theorem Inv_mcExp : Inv mcExp := by
  have h : run 10 [Op.setOp "a" [7] (some 5) 0 0] = mcExp := by rfl
  exact h ▸ Inv_run 10 [Op.setOp "a" [7] (some 5) 0 0]

/-! ### Claims C10, C5, C2, C7 -/

/-- C10: `delete` on a key absent from the Store returns absence and
leaves the whole engine state unchanged — the Store, the Recency Index,
the Expiry Index and `current_size` are exactly as before the call. -/
theorem C10_delete_absent (mc : Memcached) (k : Key)
    (h : mapGet k mc.cache = none) : mc.delete k = (none, mc) := by
  simp only [Memcached.delete, h]

theorem C10_witness :
    mapGet "a" (Memcached.new 5).cache = none ∧
      (Memcached.new 5).delete "a" = (none, Memcached.new 5) :=
  ⟨rfl, C10_delete_absent (Memcached.new 5) "a" rfl⟩

/-- C5: `get` returns the stored bytes exactly for live entries: absent
when no entry exists; for an entry without expiry the value is returned;
for an entry with expiry `t` the result is absent if and only if the
sampled instant is strictly greater than `t` (reading at an instant equal
to or before the expiry returns the value). The Rust signature takes
`&self`, which the embedding reflects by returning no successor state, so
`get` mutates nothing — in particular the expired-but-resident entry and
`current_size` stay as they are. -/
theorem C5_get (mc : Memcached) (k : Key) (now : Instant) :
    (mapGet k mc.cache = none → mc.get k now = none) ∧
    (∀ it, mapGet k mc.cache = some it → it.ttl = none → mc.get k now = some it.data) ∧
    (∀ it t, mapGet k mc.cache = some it → it.ttl = some t →
      ((mc.get k now = none ↔ t < now) ∧ (now ≤ t → mc.get k now = some it.data))) := by
  refine ⟨?_, ?_, ?_⟩
  · intro h
    simp only [Memcached.get, h]
  · intro it hget httl
    simp only [Memcached.get, hget, httl]
  · intro it t hget httl
    simp only [Memcached.get, hget, httl]
    constructor
    · by_cases hlt : t < now
      · simp [hlt]
      · simp [hlt]
    · intro hle
      have hlt : ¬ t < now := Nat.not_lt.mpr hle
      simp [hlt]

theorem C5_witness :
    mcExp.get "a" 6 = none ∧ mcExp.get "a" 5 = some [7] := by
  constructor
  · exact ((C5_get mcExp "a" 6).2.2 ⟨0, some 5, [7]⟩ 5 rfl rfl).1.mpr (by decide)
  · exact ((C5_get mcExp "a" 5).2.2 ⟨0, some 5, [7]⟩ 5 rfl rfl).2 (by decide)

/-- C2: from any state satisfying the section-3 invariants with
`current_size ≤ limit`, if `set` returns Admitted then `current_size ≤
limit` holds in the state `set` returns. -/
theorem C2_admitted_within_limit {mc : Memcached} (k : Key) (v : Bytes) (ttl : Option Nat)
    (g t : Instant) (hI : Inv mc) (hle : mc.current_size ≤ mc.limit)
    (hadm : (mc.set k v ttl g t).1 = true) :
    (mc.set k v ttl g t).2.current_size ≤ mc.limit := by
  rw [set_eq] at hadm ⊢
  simp only at hadm ⊢
  set mcg := if not_enough_space mc v.length then mc.collect_garbage g else mc with hmcg
  set mce := evictLoop v.length (mcg.cache.length + 1) mcg with hmce
  have hlimg : mcg.limit = mc.limit := by
    rw [hmcg]
    by_cases h : not_enough_space mc v.length
    · rw [if_pos h, collect_garbage_eq hI g]
      rfl
    · rw [if_neg h]
  have hlime : mce.limit = mc.limit := by
    rw [hmce, evictLoop_limit, hlimg]
  by_cases h2 : not_enough_space mce v.length
  · rw [if_pos h2] at hadm
    simp at hadm
  · rw [if_neg h2] at hadm ⊢
    simp only
    rw [commitState_size]
    have hd : (mce.delete k).2.current_size ≤ mce.current_size := delete_size_le mce k
    have hfits : mce.current_size + v.length ≤ mce.limit := by
      simp only [not_enough_space, decide_eq_true_eq, not_lt] at h2
      exact h2
    rw [hlime] at hfits
    omega

theorem C2_witness :
    Inv (Memcached.new 10) ∧ (Memcached.new 10).current_size ≤ (Memcached.new 10).limit ∧
      ((Memcached.new 10).set "a" [7] none 0 0).1 = true ∧
      ((Memcached.new 10).set "a" [7] none 0 0).2.current_size ≤ (Memcached.new 10).limit :=
  ⟨Inv_new 10, by decide, by decide,
    C2_admitted_within_limit "a" [7] none 0 0 (Inv_new 10) (by decide) (by decide)⟩

/-- C7: under the section-3 invariants, the eviction step selects the
first bucket of the Recency Index in ascending order and, inside it, the
first key; it deletes that key through the full `delete` path and reports
whether a key was evicted — false exactly when the Recency Index is
empty, in which case the Store is empty too. -/
theorem C7_remove_oldest {mc : Memcached} (hI : Inv mc) :
    ((mc.remove_oldest).1 = false ↔ mc.keys_by_touch = []) ∧
    (mc.keys_by_touch = [] → mc.remove_oldest = (false, mc) ∧ mc.cache = []) ∧
    (∀ t ks rest, mc.keys_by_touch = (t, ks) :: rest →
      ∃ k krest, ks = k :: krest ∧ mc.remove_oldest = (true, (mc.delete k).2)) := by
  refine ⟨remove_oldest_false_iff hI, ?_, ?_⟩
  · intro h
    exact ⟨remove_oldest_empty h, (empty_of_touch_empty hI h).1⟩
  · intro t ks rest h
    obtain ⟨k, krest, hks, _, heq⟩ := remove_oldest_cons hI h
    exact ⟨k, krest, hks, heq⟩

theorem C7_witness :
    mcExp.remove_oldest = (true, (mcExp.delete "a").2) := by
  obtain ⟨k, krest, hks, heq⟩ :=
    (C7_remove_oldest Inv_mcExp).2.2 0 ["a"] [] rfl
  cases hks
  exact heq

end RustMemcached

namespace RustMemcached

theorem Inv_mcFull : Inv mcFull := by
  have h : run 1 [Op.setOp "a" [7] none 0 0] = mcFull := by rfl
  exact h ▸ Inv_run 1 [Op.setOp "a" [7] none 0 0]

theorem Inv_mcA : Inv mcA := by
  have h : run 10 [Op.setOp "a" [7] none 0 0] = mcA := by rfl
  exact h ▸ Inv_run 10 [Op.setOp "a" [7] none 0 0]

/-- C4: under the section-3 invariants, `set` returns Rejected exactly
when the value alone exceeds the limit, and at any Rejected return the
Store, the Recency Index and the Expiry Index are empty and
`current_size` is zero — every previously stored entry has been collected
or evicted (the structures are trivially mutually consistent, and `Inv`
still holds there by `Inv_set`). -/
theorem C4_rejected_iff {mc : Memcached} (k : Key) (v : Bytes) (ttl : Option Nat)
    (g t : Instant) (hI : Inv mc) :
    ((mc.set k v ttl g t).1 = false ↔ mc.limit < v.length) ∧
    ((mc.set k v ttl g t).1 = false →
      (mc.set k v ttl g t).2.cache = [] ∧
      (mc.set k v ttl g t).2.keys_by_touch = [] ∧
      (mc.set k v ttl g t).2.keys_by_ttl = [] ∧
      (mc.set k v ttl g t).2.current_size = 0) := by
  rw [set_eq]
  simp only
  set mcg := if not_enough_space mc v.length then mc.collect_garbage g else mc with hmcg
  have hIg : Inv mcg := by
    rw [hmcg]
    by_cases h : not_enough_space mc v.length
    · rw [if_pos h]; exact Inv_collect_garbage hI g
    · rw [if_neg h]; exact hI
  set mce := evictLoop v.length (mcg.cache.length + 1) mcg with hmce
  have hIe : Inv mce := Inv_evictLoop hIg
  have hlime : mce.limit = mc.limit := by
    rw [hmce, evictLoop_limit, hmcg]
    by_cases h : not_enough_space mc v.length
    · rw [if_pos h, collect_garbage_eq hI g]
      rfl
    · rw [if_neg h]
  by_cases h2 : not_enough_space mce v.length
  · have htouch : mce.keys_by_touch = [] := by
      rw [hmce]
      exact evictLoop_exit hIg (by omega) (by rw [← hmce]; exact h2)
    obtain ⟨hcache, httl, hsize⟩ := empty_of_touch_empty hIe htouch
    have hlt : mc.limit < v.length := by
      simp only [not_enough_space, decide_eq_true_eq] at h2
      rw [hsize] at h2
      rw [← hlime]
      omega
    rw [if_pos h2]
    exact ⟨⟨fun _ => hlt, fun _ => rfl⟩, fun _ => ⟨hcache, htouch, httl, hsize⟩⟩
  · rw [if_neg h2]
    have hle : v.length ≤ mc.limit := by
      simp only [not_enough_space, decide_eq_true_eq, not_lt] at h2
      rw [← hlime]
      omega
    refine ⟨⟨fun hfalse => absurd hfalse (by simp), fun hlt => absurd hlt (by omega)⟩,
      fun hfalse => absurd hfalse (by simp)⟩

theorem C4_witness :
    (((Memcached.new 1).set "a" [0, 0] none 0 0).1 = false ↔ (Memcached.new 1).limit < 2) ∧
      (((Memcached.new 1).set "a" [0, 0] none 0 0).2.cache = [] ∧
        ((Memcached.new 1).set "a" [0, 0] none 0 0).2.keys_by_touch = [] ∧
        ((Memcached.new 1).set "a" [0, 0] none 0 0).2.keys_by_ttl = [] ∧
        ((Memcached.new 1).set "a" [0, 0] none 0 0).2.current_size = 0) := by
  have h := C4_rejected_iff "a" [0, 0] none 0 0 (Inv_new 1)
  exact ⟨h.1, h.2 (by decide)⟩

/-- C6: under the section-3 invariants, `collect_garbage` computes
exactly the specification `gcSpec`: it removes precisely the entries of
the Expiry-Index buckets whose instant is strictly below the sampled
instant — each such key leaves the Store and its Recency bucket, its
value length leaves `current_size`, and the expired Expiry buckets are
removed — while every bucket at or after the sampled instant and every
entry without an expiry stay untouched. -/
theorem C6_collect_garbage_spec {mc : Memcached} (hI : Inv mc) (now : Instant) :
    mc.collect_garbage now = gcSpec now mc :=
  collect_garbage_eq hI now

theorem C6_witness : mcExp.collect_garbage 6 = gcSpec 6 mcExp :=
  C6_collect_garbage_spec Inv_mcExp 6

/-- A `collect_garbage` run whose sampled instant is at or before every
Expiry bucket changes nothing. -/
theorem gc_noexpired {mc : Memcached} (hI : Inv mc) {now : Instant}
    (h : ∀ p ∈ mc.keys_by_ttl, ¬ p.1 < now) :
    mc.collect_garbage now = mc := by
  rw [collect_garbage_eq hI now]
  have hrm : expiredKeys now mc = [] := by
    unfold expiredKeys
    rw [takeWhile_sorted_eq_filter hI.eSorted]
    have : mc.keys_by_ttl.filter (fun p => decide (p.1 < now)) = [] := by
      rw [List.filter_eq_nil_iff]
      intro p hp
      simpa using h p hp
    rw [this]
    rfl
  simp only [gcSpec, hrm]
  have h1 : mc.cache.filter (fun p => decide (p.1 ∉ ([] : List Key))) = mc.cache := by
    rw [List.filter_eq_self]
    intro a _
    simp
  have h2 : purgeIdx [] mc.keys_by_touch = mc.keys_by_touch := by
    refine purgeIdx_eq_self hI.tNE ?_
    intro p _ x _
    simp
  have h3 : mc.keys_by_ttl.filter (fun p => decide (¬ p.1 < now)) = mc.keys_by_ttl := by
    rw [List.filter_eq_self]
    intro a ha
    simpa using h a ha
  rw [h1, h2, h3, keysSize_nil, Nat.sub_zero]

/-- C8 counterexample: the claim as frozen (second sampled instant merely
no earlier than the first) is false. `mcExp` satisfies the invariants,
`5 ≤ 6`, and running `collect_garbage` at 5 and then at 6 does not leave
the state of a single run at 5: the second run collects the entry that
expires at instant 5. -/
theorem C8_counterexample :
    Inv mcExp ∧ (5 : Instant) ≤ 6 ∧
      (mcExp.collect_garbage 5).collect_garbage 6 ≠ mcExp.collect_garbage 5 :=
  ⟨Inv_mcExp, by decide, by decide⟩

/-- C8 (amended): for every state satisfying the section-3 invariants,
running `collect_garbage` twice in succession with the same sampled
instant leaves the same state as running it once; the second run removes
nothing. -/
theorem C8_gc_idempotent {mc : Memcached} (hI : Inv mc) (now : Instant) :
    (mc.collect_garbage now).collect_garbage now = mc.collect_garbage now := by
  have hI' : Inv (mc.collect_garbage now) := Inv_collect_garbage hI now
  refine gc_noexpired hI' ?_
  intro p hp
  rw [collect_garbage_eq hI now] at hp
  have hp' : p ∈ mc.keys_by_ttl.filter (fun p => decide (¬ p.1 < now)) := hp
  rcases List.mem_filter.mp hp' with ⟨_, hdec⟩
  simpa using hdec

theorem C8_witness :
    (mcExp.collect_garbage 6).collect_garbage 6 = mcExp.collect_garbage 6 :=
  C8_gc_idempotent Inv_mcExp 6

end RustMemcached

namespace RustMemcached

theorem btreeRemove_btreeInsert (t : Instant) (v : List Key) (m : Idx) :
    btreeRemove t (btreeInsert t v m) = btreeRemove t m := by
  induction m with
  | nil => simp [btreeInsert, btreeRemove, List.filter_cons]
  | cons p rest ih =>
    by_cases h1 : t < p.1
    · simp only [btreeInsert, if_pos h1]
      rw [btreeRemove_cons, if_pos rfl]
    · by_cases h2 : t = p.1
      · simp only [btreeInsert, if_neg h1, if_pos h2]
        rw [btreeRemove_cons, if_pos rfl, btreeRemove_cons, if_pos h2.symm]
      · simp only [btreeInsert, if_neg h1, if_neg h2]
        have hp : ¬ p.1 = t := fun he => h2 he.symm
        rw [btreeRemove_cons, if_neg hp, btreeRemove_cons, if_neg hp, ih]

theorem btreeRemove_idem (t : Instant) (m : Idx) :
    btreeRemove t (btreeRemove t m) = btreeRemove t m :=
  btreeRemove_eq_self (btreeGet_btreeRemove_self t m)

theorem btreeInsert_btreeRemove_get {t : Instant} {v : List Key} {m : Idx}
    (hs : sortedIdx m) (hget : btreeGet t m = some v) :
    btreeInsert t v (btreeRemove t m) = m := by
  induction m with
  | nil => simp [btreeGet] at hget
  | cons p rest ih =>
    rcases List.pairwise_cons.mp hs with ⟨hp, hrest⟩
    by_cases hpt : p.1 = t
    · have hv : p.2 = v := by simpa [btreeGet, hpt] using hget
      have hrem : btreeRemove t rest = rest := by
        refine btreeRemove_eq_self (btreeGet_none_of_not_mem fun ks' hmem => ?_)
        have h2 : p.1 < t := hp _ hmem
        exact absurd hpt (Nat.ne_of_lt h2)
      have hfront : ∀ q ∈ rest, t < q.1 := fun q hq => hpt ▸ hp _ hq
      rw [btreeRemove_cons, if_pos hpt, hrem, btreeInsert_front hfront, ← hv, ← hpt]
    · have hget' : btreeGet t rest = some v := by simpa [btreeGet, hpt] using hget
      have hplt : p.1 < t := hp _ (btreeGet_mem hget')
      rw [btreeRemove_cons, if_neg hpt]
      have h1 : ¬ t < p.1 := Nat.not_lt.mpr (Nat.le_of_lt hplt)
      have h2 : ¬ t = p.1 := fun he => absurd he.symm (Nat.ne_of_lt hplt)
      simp only [btreeInsert, if_neg h1, if_neg h2]
      rw [ih hrest hget']

/-- Purging a key that was fresh (in no bucket) right after appending it
at instant `t` restores the original index. -/
theorem purge_idxApp_fresh {idx : Idx} {t : Instant} {k : Key}
    (hs : sortedIdx idx) (hne : ∀ p ∈ idx, p.2 ≠ [])
    (hnk : ∀ p ∈ idx, k ∉ p.2) :
    purgeIdx [k] (btreeInsert t (((btreeGet t idx).getD []) ++ [k]) (btreeRemove t idx)) = idx := by
  have hs' : sortedIdx (btreeInsert t (((btreeGet t idx).getD []) ++ [k]) (btreeRemove t idx)) :=
    idxApp_sorted hs
  have hne' : ∀ p ∈ btreeInsert t (((btreeGet t idx).getD []) ++ [k]) (btreeRemove t idx),
      p.2 ≠ [] := by
    intro p hp
    rcases idxApp_mem_elim hp with h' | ⟨h', _⟩
    · rw [h']; simp
    · exact hne p h'
  have hget' := idxApp_get_self t k idx
  have hconf : ∀ p ∈ btreeInsert t (((btreeGet t idx).getD []) ++ [k]) (btreeRemove t idx),
      k ∈ p.2 → p.1 = t := by
    intro p hp hk
    rcases idxApp_mem_elim hp with h' | ⟨h', _⟩
    · rw [h']
    · exact absurd hk (hnk p h')
  rw [purge_single_bucket hs' hne' hget' hconf]
  have hkB : ((((btreeGet t idx).getD []) ++ [k]).filter
      (fun x => decide (x ∉ ([k] : List Key)))) = (btreeGet t idx).getD [] := by
    rw [List.filter_append]
    have ha : (([k] : List Key).filter (fun x => decide (x ∉ ([k] : List Key)))) = [] := by
      simp
    have hb : (((btreeGet t idx).getD []).filter (fun x => decide (x ∉ ([k] : List Key)))) =
        (btreeGet t idx).getD [] := by
      rw [List.filter_eq_self]
      intro a ha'
      cases hBg : btreeGet t idx with
      | none => rw [hBg] at ha'; simp at ha'
      | some B0 =>
        rw [hBg] at ha'
        simp only [Option.getD_some] at ha'
        have : a ≠ k := fun he => hnk (t, B0) (btreeGet_mem hBg) (he ▸ ha')
        simpa using this
    rw [ha, hb, List.append_nil]
  rw [hkB]
  have hrr : btreeRemove t (btreeInsert t (((btreeGet t idx).getD []) ++ [k])
      (btreeRemove t idx)) = btreeRemove t idx := by
    rw [btreeRemove_btreeInsert, btreeRemove_idem]
  rw [hrr]
  cases hBg : btreeGet t idx with
  | none =>
    simp only [hBg, Option.getD_none, List.isEmpty_nil, if_true]
    exact btreeRemove_eq_self hBg
  | some B0 =>
    have hB0 : B0 ≠ [] := by
      have := hne (t, B0) (btreeGet_mem hBg)
      simpa using this
    have hemp : B0.isEmpty = false := by
      rw [Bool.eq_false_iff]
      intro he
      exact hB0 (List.isEmpty_iff.mp he)
    simp only [hBg, Option.getD_some, hemp, Bool.false_eq_true, if_false]
    exact btreeInsert_btreeRemove_get hs hBg

/-- C9 counterexample: the claim as frozen (for every engine state)
fails. Both `mcFull` (full cache: the `set` evicts the unrelated key
`"a"`) and `mcA` (key `"a"` already present: the `set` removes the old
entry) satisfy the invariants, yet `set` then `delete` does not restore
the original state. -/
theorem C9_counterexample :
    (Inv mcFull ∧ (((mcFull.set "b" [1] none 1 1).2.delete "b").2 ≠ mcFull)) ∧
      (Inv mcA ∧ (((mcA.set "a" [1, 2] none 1 1).2.delete "a").2 ≠ mcA)) :=
  ⟨⟨Inv_mcFull, by decide⟩, ⟨Inv_mcA, by decide⟩⟩

/-- C9 (amended): for every engine state satisfying the section-3
invariants in which `k` is not stored and the new value fits without
reclamation (`current_size + |v| ≤ limit`), `set(k, v, None)` followed by
`delete(k)` leaves `current_size`, the Store, the Recency Index and the
Expiry Index exactly as they were before the `set`. -/
theorem C9_set_delete_roundtrip {mc : Memcached} (hI : Inv mc) (k : Key) (v : Bytes)
    (g t : Instant) (habs : mapGet k mc.cache = none)
    (hfits : mc.current_size + v.length ≤ mc.limit) :
    (((mc.set k v none g t).2).delete k).2 = mc := by
  have hns : not_enough_space mc v.length = false := by
    simp only [not_enough_space, decide_eq_false_iff_not, not_lt]
    exact hfits
  rw [set_eq]
  simp only [hns, Bool.false_eq_true, if_false]
  have hloop : evictLoop v.length (mc.cache.length + 1) mc = mc := by
    simp [evictLoop, hns]
  rw [hloop, hns]
  simp only [Bool.false_eq_true, if_false, Option.map_none]
  rw [delete_absent habs]
  simp only
  show ((commitState mc k v none t).delete k).2 = mc
  -- the committed state
  have hIS : Inv (commitState mc k v none t) :=
    Inv_commitState hI v none t habs
  have hgetS : mapGet k (commitState mc k v none t).cache = some ⟨t, none, v⟩ := by
    rw [commitState_none_eq]
    show mapGet k (mapInsert k ⟨t, none, v⟩ mc.cache) = _
    simp only [mapInsert, mapRemove_eq_self habs]
    exact mapGet_cons_self _ _ _
  rw [delete_some_eq hIS hgetS]
  simp only
  -- field-by-field return to `mc`
  have hcache : mapRemove k (commitState mc k v none t).cache = mc.cache := by
    rw [commitState_none_eq]
    show mapRemove k (mapInsert k ⟨t, none, v⟩ mc.cache) = _
    simp only [mapInsert, mapRemove_eq_self habs]
    rw [mapRemove_cons, if_pos rfl, mapRemove_eq_self habs]
  have httl : purgeIdx [k] (commitState mc k v none t).keys_by_ttl = mc.keys_by_ttl := by
    rw [commitState_none_eq]
    show purgeIdx [k] mc.keys_by_ttl = _
    refine purgeIdx_eq_self hI.eNE ?_
    intro p hp x hx hxk
    rw [List.mem_singleton] at hxk
    obtain ⟨it', hit', _⟩ := hI.eCache p hp x hx
    rw [hxk, habs] at hit'
    exact Option.noConfusion hit'
  have htouch : purgeIdx [k] (commitState mc k v none t).keys_by_touch = mc.keys_by_touch := by
    rw [commitState_none_eq]
    show purgeIdx [k] (btreeInsert t (((btreeGet t mc.keys_by_touch).getD []) ++ [k])
      (btreeRemove t mc.keys_by_touch)) = _
    refine purge_idxApp_fresh hI.tSorted hI.tNE ?_
    intro p hp hk
    obtain ⟨it', hit', _⟩ := hI.tCache p hp k hk
    rw [habs] at hit'
    exact Option.noConfusion hit'
  have hsize : (commitState mc k v none t).current_size - v.length = mc.current_size := by
    rw [commitState_size]
    omega
  rw [hcache, httl, htouch]
  show ({ limit := (commitState mc k v none t).limit,
          current_size := (commitState mc k v none t).current_size - v.length,
          cache := mc.cache, keys_by_ttl := mc.keys_by_ttl,
          keys_by_touch := mc.keys_by_touch } : Memcached) = mc
  rw [hsize, commitState_limit]

theorem C9_witness :
    ((((Memcached.new 10).set "a" [7] none 0 0).2.delete "a").2 = Memcached.new 10) :=
  C9_set_delete_roundtrip (Inv_new 10) "a" [7] 0 0 rfl (by decide)

end RustMemcached

namespace RustMemcached

/-- Under the invariant the source eviction loop (exit on
`remove_oldest` returning false) coincides with the spec loop (exit on
an empty Recency Index), fuel for fuel. -/
theorem evictLoop_eq_spec {v : Nat} {mc : Memcached} (hI : Inv mc) (fuel : Nat) :
    evictLoop v fuel mc = evictLoopSpec v fuel mc := by
  induction fuel generalizing mc with
  | zero => rfl
  | succ n ih =>
    simp only [evictLoop, evictLoopSpec]
    by_cases hns : not_enough_space mc v
    · rw [if_pos hns]
      have hd : decide (mc.current_size + v ≤ mc.limit) = false := by
        simp only [not_enough_space, decide_eq_true_eq] at hns
        simp only [decide_eq_false_iff_not, not_le]
        exact hns
      rw [hd]
      simp only [Bool.false_eq_true, if_false]
      cases htouch : mc.keys_by_touch with
      | nil =>
        rw [remove_oldest_empty htouch]
      | cons p rest =>
        rcases p with ⟨pt, pks⟩
        obtain ⟨k, krest, hks, _, heq⟩ := remove_oldest_cons hI htouch
        rw [heq]
        dsimp only
        have hhd : pks.headD "" = k := by rw [hks]; rfl
        rw [hhd]
        exact ih (Inv_delete hI k)
    · rw [if_neg hns]
      have hd : decide (mc.current_size + v ≤ mc.limit) = true := by
        simp only [not_enough_space, decide_eq_true_eq, not_lt] at hns
        simp [hns]
      rw [hd]
      simp only [if_true]

/-- C3: on every state satisfying the section-3 invariants, `set`
computes exactly the eight-step admission pipeline `setSpec` of spec
section 4.1: the fit test counts any pre-existing entry for the key as
still present, a failing test triggers one `collect_garbage`, then the
oldest key is evicted while the entry still does not fit and the Recency
Index is non-empty, and only after the test passes is the pre-existing
entry removed (full delete semantics), the new entry inserted with
`expiry = ttl.map (touch + .)`, the key appended to the Recency bucket at
`touch` and (when the expiry is set) to the Expiry bucket at the expiry,
and `current_size` increased by the value length. -/
theorem C3_set_follows_spec {mc : Memcached} (hI : Inv mc) (k : Key) (v : Bytes)
    (ttl : Option Nat) (g t : Instant) :
    mc.set k v ttl g t = setSpec mc k v ttl g t := by
  rw [set_eq]
  simp only [setSpec]
  have hif : (if not_enough_space mc v.length = true then mc.collect_garbage g else mc) =
      (if decide (mc.current_size + v.length ≤ mc.limit) = true then mc
       else mc.collect_garbage g) := by
    by_cases h : mc.current_size + v.length ≤ mc.limit
    · have h1 : not_enough_space mc v.length = false := by
        simp only [not_enough_space, decide_eq_false_iff_not, not_lt]
        exact h
      rw [h1, decide_eq_true h]
      simp
    · have h1 : not_enough_space mc v.length = true := by
        simp only [not_enough_space, decide_eq_true_eq]
        omega
      have h2 : decide (mc.current_size + v.length ≤ mc.limit) = false := by
        simp [h]
      rw [h1, h2]
      simp
  rw [hif]
  set mcg := if decide (mc.current_size + v.length ≤ mc.limit) = true then mc
    else mc.collect_garbage g with hmcg
  have hIg : Inv mcg := by
    rw [hmcg]
    by_cases h : decide (mc.current_size + v.length ≤ mc.limit) = true
    · rw [if_pos h]; exact hI
    · rw [if_neg h]; exact Inv_collect_garbage hI g
  rw [evictLoop_eq_spec hIg]
  set mce := evictLoopSpec v.length (mcg.cache.length + 1) mcg with hmce
  have hcond : not_enough_space mce v.length =
      decide (¬ mce.current_size + v.length ≤ mce.limit) := by
    simp only [not_enough_space]
    exact decide_eq_decide.mpr (by omega)
  rw [hcond]
  by_cases h2 : decide (¬ mce.current_size + v.length ≤ mce.limit) = true
  · rw [if_pos h2, if_pos h2]
  · rw [if_neg h2, if_neg h2]
    rfl

theorem C3_witness :
    (Memcached.new 3).set "a" [7] (some 5) 0 0 = setSpec (Memcached.new 3) "a" [7] (some 5) 0 0 :=
  C3_set_follows_spec (Inv_new 3) "a" [7] (some 5) 0 0

end RustMemcached

namespace RustMemcached

theorem remove_oldest_true_shrinks {mc mc' : Memcached}
    (h : mc.remove_oldest = (true, mc')) : mc'.cache.length < mc.cache.length := by
  simp only [Memcached.remove_oldest] at h
  cases hh : mc.keys_by_touch.head? with
  | none => rw [hh] at h; simp at h
  | some p =>
    rcases p with ⟨pt, pks⟩
    rw [hh] at h
    dsimp only at h
    cases hk : pks.head? with
    | none => rw [hk] at h; simp at h
    | some k =>
      rw [hk] at h
      dsimp only at h
      have h1 : (mc.delete k).1.isSome = true := (Prod.ext_iff.mp h).1
      have h2 : mc' = (mc.delete k).2 := ((Prod.ext_iff.mp h).2).symm
      rw [h2]
      exact delete_cache_length_of_isSome h1

/-- The fuel `set` passes to `evictLoop` is irrelevant beyond
`cache.length`: the loop always exits before exhausting it, so the fueled
definition computes the source's unbounded `while` loop. -/
theorem evictLoop_fuel_irrel (v : Nat) :
    ∀ f₁ f₂ (mc : Memcached), mc.cache.length < f₁ → mc.cache.length < f₂ →
      evictLoop v f₁ mc = evictLoop v f₂ mc := by
  intro f₁
  induction f₁ with
  | zero => intro f₂ mc h1; omega
  | succ a ih =>
    intro f₂ mc h1 h2
    cases f₂ with
    | zero => omega
    | succ b =>
      simp only [evictLoop]
      by_cases hns : not_enough_space mc v
      · rw [if_pos hns, if_pos hns]
        cases hro : mc.remove_oldest with
        | mk bb mc' =>
          cases bb with
          | true =>
            dsimp only
            have hlen := remove_oldest_true_shrinks hro
            exact ih b mc' (by omega) (by omega)
          | false => rfl
      · rw [if_neg hns, if_neg hns]

end RustMemcached
